import Mathlib

/-!
Verification of `CI-scripts/image_tree.py`: a dependency tree of container
images.  The Python classes `Image` and `ImageTree` are embedded shallowly:

* an `Image` object is a record; object identity coincides with the `name`
  field because every completed construction stores exactly one object per
  name in the tree's `images` dict;
* the mutable tree is an explicit `ImageTree` state threaded through the
  operations; Python exceptions are modelled by an error result that still
  carries the state (Python mutations persist when an exception propagates);
* recursion through the filesystem is bounded by an explicit fuel parameter;
  running out of fuel is an error, mirroring Python's unbounded recursion
  which can only fail to terminate on cyclic inputs;
* the filesystem (`root_dir`, `rglob`, `is_dir`, `read_text`) is a value:
  the set of image directories that exist and the Dockerfile lines of each.
-/

/-- Python exceptions raised by the program, plus the fuel-exhaustion
artifact of the embedding. -/
inductive PyError where
  | stopIteration
  | valueError (msg : String)
  | indexError
  | attributeError
  | fileNotFound
  | keyError
  | outOfFuel
  deriving Repr, DecidableEq

/-- One `Image` node: `name`, weak parent reference (by name), list of
children (by name, deduplicated on insertion), the Python-version
compatibility flag, and `dirpath` (`some name` normally, `none` after the
node becomes the synthetic root).  Mirrors `Image.__init__`. -/
structure Image where
  name : String
  parent : Option String := none
  children : List String := []
  python_compat : Bool := true
  dirpath : Option String := none
  deriving Repr, DecidableEq

/-- The tree state: insertion-ordered name-keyed mapping of images, the
current root image (by name), and the externally supplied version token
(`getenv("PYTHON_VERSION")`, absent modelled as `none`). -/
structure ImageTree where
  images : List (String × Image) := []
  root_image : Option String := none
  python_version : Option String := none
  deriving Repr, DecidableEq

/-- The filesystem under `root_dir`: which image directories exist, and the
lines of `<name>/Dockerfile` for each directory that has one. -/
structure FileSystem where
  dirs : List String := []
  dockerfiles : List (String × List String) := []
  deriving Repr, DecidableEq

/-- Result of a stateful operation: Python exceptions propagate but leave
the mutations made so far in place, so the error case carries the state. -/
inductive PyResult (α : Type) where
  | ok (a : α) (st : ImageTree)
  | err (e : PyError) (st : ImageTree)
  deriving Repr, DecidableEq

/-- First value bound to a key in an association list (Python dict lookup). -/
def lookupImage : List (String × Image) → String → Option Image
  | [], _ => none
  | (k, v) :: rest, n => if k = n then some v else lookupImage rest n

/-- Replace the value at a key, keeping its position, or append a new
binding (Python dict item assignment). -/
def updateAssoc : List (String × Image) → String → Image → List (String × Image)
  | [], n, v => [(n, v)]
  | (k, old) :: rest, n, v =>
    if k = n then (n, v) :: rest else (k, old) :: updateAssoc rest n v

/-- `self.images[name] = img`. -/
def insertImage (st : ImageTree) (n : String) (img : Image) : ImageTree :=
  { st with images := updateAssoc st.images n img }

/-- Keys of the mapping in insertion order (`self.images.keys()`). -/
def imageKeys (st : ImageTree) : List String :=
  st.images.map Prod.fst

/-- Whether `pre` is a prefix of `s`, character by character
(Python `str.startswith`). -/
def isPrefixList : List Char → List Char → Bool
  | [], _ => true
  | _ :: _, [] => false
  | a :: as, b :: bs => a = b && isPrefixList as bs

/-- Python `s.startswith(pre)`. -/
def pyStartsWith (pre s : String) : Bool :=
  isPrefixList pre.data s.data

/-- Replace all non-overlapping occurrences of `pat` left-to-right, the
recursion bounded by the length of the input (Python `str.replace`). -/
def replaceAllAux (pat repl : List Char) : Nat → List Char → List Char
  | _, [] => []
  | 0, l => l
  | fuel + 1, x :: xs =>
    if isPrefixList pat (x :: xs) then
      repl ++ replaceAllAux pat repl fuel (List.drop (pat.length - 1) xs)
    else
      x :: replaceAllAux pat repl fuel xs

/-- Python `s.replace(pat, repl)` for a non-empty literal pattern. -/
def pyReplace (s pat repl : String) : String :=
  ⟨replaceAllAux pat.data repl.data s.data.length s.data⟩

/-- Python `s.lstrip('$')`: drop every leading dollar sign. -/
def stripDollars (s : String) : String :=
  ⟨s.data.dropWhile (fun c => c = '$')⟩

/-- Whether the string starts with the given character. -/
def startsWithChar (s : String) (c : Char) : Bool :=
  match s.data with
  | [] => false
  | x :: _ => x = c

/-- Python `s.split(c)` for a single-character separator: split at every
occurrence, keeping empty parts. -/
def splitOnCharList (c : Char) : List Char → List (List Char)
  | [] => [[]]
  | x :: xs =>
    let r := splitOnCharList c xs
    if x = c then [] :: r
    else
      match r with
      | h :: t => (x :: h) :: t
      | [] => [[x]]

/-- The `parent_image, parent_tag = image_tag.split(':')` step together with
its `except ValueError` handler: the unpacking succeeds only when the split
yields exactly two parts; otherwise the whole string is the image name and
the tag is absent. -/
def splitImageTag (s : String) : String × Option String :=
  match splitOnCharList ':' s.data with
  | [a, b] => (⟨a⟩, some (⟨b⟩ : String))
  | _ => (s, none)

/-- The first line starting with `FROM` (`next(l for l in dockerfile
if l.startswith('FROM'))`); `none` is Python's `StopIteration`. -/
def fromLineOf (lines : List String) : Option String :=
  lines.find? (fun l => pyStartsWith "FROM" l)

/-- `from_line.replace('FROM ', '')`. -/
def rawParentInfo (lines : List String) : Option String :=
  (fromLineOf lines).map (fun l => pyReplace l "FROM " "")

/-- `_value_from_arg`: resolve a `$VAR` reference against the first
`ARG VAR=` line; `none` is the `StopIteration` of the inner `next`. -/
def valueFromArg (var : String) (lines : List String) : Option String :=
  let decl := "ARG " ++ stripDollars var ++ "="
  (lines.find? (fun l => pyStartsWith decl l)).map (fun l => pyReplace l decl "")

/-- The base-image reference after optional build-arg substitution. -/
def resolvedParentInfo (lines : List String) : Option String :=
  match rawParentInfo lines with
  | none => none
  | some info =>
    if startsWithChar info '$' then valueFromArg info lines else some info

/-- `Image._parse_parent_from_dockerfile`, as a pure function of the
version token, the node's current `python_compat` flag and the Dockerfile
lines.  Returns the bare parent image name and the updated flag; errors are
the `StopIteration` of the two `next` calls and the `IndexError` of
`parent_tag[0]` on an empty tag. -/
def parse_parent_from_dockerfile (pyv : Option String) (compat : Bool)
    (lines : List String) : Except PyError (String × Bool) :=
  match resolvedParentInfo lines with
  | none => .error .stopIteration
  | some info =>
    let imageTag := pyReplace info "contextlab/" ""
    match splitImageTag imageTag with
    | (parentImage, none) => .ok (parentImage, compat)
    | (parentImage, some t) =>
      match t.data with
      | [] => .error .indexError
      | c0 :: _ =>
        .ok (parentImage, if c0.isDigit && (some t ≠ pyv) then false else compat)

/-- A fresh `Image(name, tree)`: no parent, no children, compatible,
`dirpath = root_dir/name`. -/
def newImage (n : String) : Image :=
  { name := n, parent := none, children := [], python_compat := true,
    dirpath := some n }

/-- The four mutually recursive mutating methods, folded into one call type
so that the recursion is structural in the fuel:
`ImageTree.get_image`, `ImageTree.create_image`, `Image.add_to_tree`,
`ImageTree.link_images`.  Each returns the `Image` the Python method yields
or operates on (for `add_to_tree`/`link_images`, the mutated child object,
which the model passes by value because it may not yet be in the dict). -/
inductive CallK where
  | get_image (name : String) (create_new : Bool)
  | create_image (name : String)
  | add_to_tree (img : Image)
  | link_images (parent : String) (child : Image)
  deriving Repr, DecidableEq

/-- One step of the construction machinery.  Faithful points:
`create_image` stores the node only after `add_to_tree` returns; the loop
in `link_images` resolves the parent with `create_new=True` before reading
its flag; `add_to_tree` with a missing directory clears `dirpath` and makes
the node the tree's root. -/
def exec (fs : FileSystem) : Nat → ImageTree → CallK → PyResult Image
  | 0, st, _ => .err .outOfFuel st
  | fuel + 1, st, .get_image n cn =>
    match lookupImage st.images n with
    | some img => .ok img st
    | none =>
      if cn then exec fs fuel st (.create_image n)
      else
        .err (.valueError ("No Image named " ++ n ++ " in:" ++
          String.intercalate ", " (imageKeys st))) st
  | fuel + 1, st, .create_image n =>
    (match exec fs fuel st (.add_to_tree (newImage n)) with
     | .ok img' st' => .ok img' (insertImage st' n img')
     | .err e st' => .err e st')
  | fuel + 1, st, .add_to_tree img =>
    (match img.dirpath with
     | none => .err .attributeError st
     | some d =>
       if fs.dirs.contains d then
         match (fs.dockerfiles.lookup d : Option (List String)) with
         | none => .err .fileNotFound st
         | some lines =>
           match parse_parent_from_dockerfile st.python_version
               img.python_compat lines with
           | .error e => .err e st
           | .ok (pn, c') =>
             exec fs fuel st (.link_images pn { img with python_compat := c' })
       else
         .ok { img with dirpath := none } { st with root_image := some img.name })
  | fuel + 1, st, .link_images pn child =>
    (match exec fs fuel st (.get_image pn true) with
     | .err e st' => .err e st'
     | .ok p st' =>
       let child' := if p.python_compat then child
                     else { child with python_compat := false }
       let p' : Image :=
         { p with children :=
             if p.children.contains child.name then p.children
             else p.children ++ [child.name] }
       .ok { child' with parent := some pn } (insertImage st' pn p'))

/-- The loop body of `ImageTree._create_tree`: fetch-or-create the node for
each discovered Dockerfile, then call `add_to_tree` on it; the returned
(mutated) object is written back to its dict slot, modelling in-place
mutation. -/
def create_tree (fs : FileSystem) (fuel : Nat) :
    ImageTree → List String → PyResult Unit
  | st, [] => .ok () st
  | st, n :: rest =>
    match exec fs fuel st (.get_image n true) with
    | .err e st' => .err e st'
    | .ok img st' =>
      match exec fs fuel st' (.add_to_tree img) with
      | .err e st'' => .err e st''
      | .ok img' st'' => create_tree fs fuel (insertImage st'' n img') rest

/-- `ImageTree.__init__`: empty mapping, no root, the environment version
token, then `_create_tree` over the discovered Dockerfile directories in
discovery order. -/
def buildTree (fs : FileSystem) (pyv : Option String) (order : List String)
    (fuel : Nat) : PyResult Unit :=
  create_tree fs fuel
    { images := [], root_image := none, python_version := pyv } order

/-- `Image.ancestors`: recurse through `parent` until the parent is
(identical to) the tree's root image, then append self.  Dereferencing an
absent parent is Python's `AttributeError`. -/
def ancestors (st : ImageTree) : Nat → Image → Except PyError (List Image)
  | 0, _ => .error .outOfFuel
  | fuel + 1, img =>
    if img.parent = st.root_image then .ok [img]
    else
      match img.parent with
      | none => .error .attributeError
      | some pn =>
        match lookupImage st.images pn with
        | none => .error .keyError
        | some p =>
          match ancestors st fuel p with
          | .ok lp => .ok (lp ++ [img])
          | .error e => .error e

/-- `Image.descendants` (`inl`) together with the loop over `children`
(`inr`): self followed by the concatenation of the children's descendant
lists, children resolved through the dict. -/
def descendAux (st : ImageTree) : Nat → Image ⊕ List String → Except PyError (List Image)
  | 0, _ => .error .outOfFuel
  | fuel + 1, .inl img =>
    (match descendAux st fuel (.inr img.children) with
     | .ok descs => .ok (img :: descs)
     | .error e => .error e)
  | _ + 1, .inr [] => .ok []
  | fuel + 1, .inr (c :: cs) =>
    match lookupImage st.images c with
    | none => .error .keyError
    | some ci =>
      match descendAux st fuel (.inl ci) with
      | .error e => .error e
      | .ok ds =>
        match descendAux st fuel (.inr cs) with
        | .error e => .error e
        | .ok rest => .ok (ds ++ rest)

/-- `Image.descendants`. -/
def descendants (st : ImageTree) (fuel : Nat) (img : Image) :
    Except PyError (List Image) :=
  descendAux st fuel (.inl img)

/-- The read-only lookup of `determine_rebuilds`
(`get_image(..., create_new=False)`), with the same error message. -/
def lookupOrError (st : ImageTree) (n : String) : Except PyError Image :=
  match lookupImage st.images n with
  | some img => .ok img
  | none =>
    .error (.valueError ("No Image named " ++ n ++ " in:" ++
      String.intercalate ", " (imageKeys st)))

/-- The first loop of `determine_rebuilds`: per edited name, look the node
up (failing on an unknown name) and extend with its descendants. -/
def collectDescendants (st : ImageTree) (fuel : Nat) :
    List String → Except PyError (List Image)
  | [] => .ok []
  | n :: ns =>
    match lookupOrError st n with
    | .error e => .error e
    | .ok img =>
      match descendants st fuel img with
      | .error e => .error e
      | .ok ds =>
        match collectDescendants st fuel ns with
        | .error e => .error e
        | .ok rest => .ok (ds ++ rest)

/-- `list(set(dependent_imgs))`: deduplication by object identity.  Objects
are identified by name (the dict holds one object per name); the model
fixes the first-occurrence order, one of the unspecified orders a Python
set can produce. -/
def dedupByName (seen : List String) : List Image → List Image
  | [] => []
  | x :: xs =>
    if seen.contains x.name then dedupByName seen xs
    else x :: dedupByName (x.name :: seen) xs

/-- Stable insertion of an element into a depth-keyed list: placed before
the first strictly larger key, after equal keys already present. -/
def insortByKey (x : Image × Nat) : List (Image × Nat) → List (Image × Nat)
  | [] => [x]
  | y :: ys => if x.2 ≤ y.2 then x :: y :: ys else y :: insortByKey x ys

/-- Stable sort by key (Python's `sorted` is stable; any stable
sort-by-key computes the same list). -/
def stableSortByKey : List (Image × Nat) → List (Image × Nat)
  | [] => []
  | x :: xs => insortByKey x (stableSortByKey xs)

/-- `sorted(..., key=lambda img: len(img.ancestors))`: pair every image
with its ancestor-chain length, propagating the first failure. -/
def keyByDepth (st : ImageTree) (fuel : Nat) :
    List Image → Except PyError (List (Image × Nat))
  | [] => .ok []
  | img :: rest =>
    match ancestors st fuel img with
    | .error e => .error e
    | .ok l =>
      match keyByDepth st fuel rest with
      | .error e => .error e
      | .ok ks => .ok ((img, l.length) :: ks)

/-- `ImageTree.determine_rebuilds`: collect descendants of the edited
images, deduplicate, sort by ancestor-chain length, filter by
`python_compat`, return the names. -/
def determine_rebuilds (st : ImageTree) (fuel : Nat) (edited : List String) :
    Except PyError (List String) :=
  match collectDescendants st fuel edited with
  | .error e => .error e
  | .ok deps =>
    match keyByDepth st fuel (dedupByName [] deps) with
    | .error e => .error e
    | .ok keyed =>
      .ok (((stableSortByKey keyed).filter
        (fun p => p.1.python_compat)).map (fun p => p.1.name))

/-- Spec-side restatement of the incompatibility condition on a parsed tag:
present, first character a digit, and different from the target version. -/
def specTagIncompatible (pyv : Option String) (tag : Option String) : Bool :=
  match tag with
  | none => false
  | some t =>
    match t.data with
    | [] => false
    | c :: _ => c.isDigit && (some t ≠ pyv)

/-- Characters of a string that are colons. -/
def colonCount (s : String) : Nat :=
  s.data.count ':'

/-- The part of the reference before the first colon. -/
def beforeColon (s : String) : String :=
  ⟨s.data.takeWhile (fun c => c ≠ ':')⟩

/-- The part of the reference after the first colon. -/
def afterColon (s : String) : String :=
  ⟨(s.data.dropWhile (fun c => c ≠ ':')).tail⟩

/-- What one registration of image `n` would parse, as a pure function of
the filesystem and version token: read `n/Dockerfile` and parse it with a
fresh (`true`) compatibility flag.  The second component is the node's
self-compatibility. -/
def parseOutcome (fs : FileSystem) (pyv : Option String) (n : String) :
    Except PyError (String × Bool) :=
  match (fs.dockerfiles.lookup n : Option (List String)) with
  | none => .error .fileNotFound
  | some lines => parse_parent_from_dockerfile pyv true lines

/-- `a`'s directory exists and its Dockerfile parses to parent `b`:
the deterministic parent edge induced by the filesystem. -/
def ppLink (fs : FileSystem) (pyv : Option String) (a b : String) : Prop :=
  fs.dirs.contains a = true ∧ ∃ s, parseOutcome fs pyv a = .ok (b, s)

/-- `b` is reachable from `a` along parse-parent edges. -/
def Reaches (fs : FileSystem) (pyv : Option String) : String → String → Prop :=
  Relation.ReflTransGen (ppLink fs pyv)

/-- Names the construction must materialise: discovered names and
everything their parse-parent chains reach. -/
def InClosureL (fs : FileSystem) (pyv : Option String) (order : List String)
    (x : String) : Prop :=
  ∃ n, n ∈ order ∧ Reaches fs pyv n x

/-- Well-formedness of one stored node: its name matches its key, its
children are exactly nodes whose Dockerfile names it as parent, and its
parent pointer, path and compatibility flag agree with its own parse
outcome (images with a directory) or mark it as the synthetic external
root (images without one). -/
def EntryOk (fs : FileSystem) (pyv : Option String) (st : ImageTree)
    (n : String) (img : Image) : Prop :=
  img.name = n ∧
  (∀ c, c ∈ img.children →
    fs.dirs.contains c = true ∧ ∃ s, parseOutcome fs pyv c = .ok (n, s)) ∧
  (if fs.dirs.contains n then
    ∃ p s pimg, parseOutcome fs pyv n = .ok (p, s) ∧ img.parent = some p ∧
      img.dirpath = some n ∧ lookupImage st.images p = some pimg ∧
      img.python_compat = (s && pimg.python_compat)
  else img.parent = none ∧ img.dirpath = none ∧ img.python_compat = true)

/-- Every stored node whose Dockerfile names `p` as parent, with `p`
stored, is registered in `p`'s children. -/
def ChildIn (fs : FileSystem) (pyv : Option String) (st : ImageTree) : Prop :=
  ∀ c cimg p s, lookupImage st.images c = some cimg →
    fs.dirs.contains c = true → parseOutcome fs pyv c = .ok (p, s) →
    ∀ pimg, lookupImage st.images p = some pimg → c ∈ pimg.children

/-- Children lists name stored nodes, except possibly names in `ex`
(a node whose registration is still in progress). -/
def NoDanglingExcept (st : ImageTree) (ex : List String) : Prop :=
  ∀ n img c, lookupImage st.images n = some img → c ∈ img.children →
    (lookupImage st.images c).isSome = true ∨ c ∈ ex

/-- The recorded root is a stored external node, except possibly a name in
`ex` (a root whose registration is still in progress). -/
def RootOkExcept (fs : FileSystem) (st : ImageTree) (ex : List String) : Prop :=
  ∀ r, st.root_image = some r →
    ((lookupImage st.images r).isSome = true ∧ fs.dirs.contains r = false) ∨
      r ∈ ex

/-- The construction invariant over reachable tree states. -/
def BaseInv (fs : FileSystem) (pyv : Option String) (st : ImageTree) : Prop :=
  st.python_version = pyv ∧
  (∀ n img, lookupImage st.images n = some img → EntryOk fs pyv st n img) ∧
  ChildIn fs pyv st ∧
  NoDanglingExcept st [] ∧
  RootOkExcept fs st []

/-- The names whose `create_image` call is still on the Python stack: they
form a parse-parent chain and none is stored yet. -/
def StackOk (fs : FileSystem) (pyv : Option String) (st : ImageTree)
    (P : List String) : Prop :=
  List.Chain' (ppLink fs pyv) P ∧ ∀ x ∈ P, lookupImage st.images x = none

/-- A non-empty parse-parent cycle, written with its wrap-around edge. -/
def CycleOk (fs : FileSystem) (pyv : Option String) : List String → Prop
  | [] => False
  | m :: rest => List.Chain' (ppLink fs pyv) ((m :: rest) ++ [m])

/-- Stored names are never removed. -/
def PreservesKeys (st st' : ImageTree) : Prop :=
  ∀ k, (lookupImage st.images k).isSome = true →
    (lookupImage st'.images k).isSome = true

/-- Concrete filesystem: `base → mid → {leaf1, leaf2}` with `base`
external (spec scenario). -/
def fsA : FileSystem :=
  { dirs := ["mid", "leaf1", "leaf2"],
    dockerfiles :=
      [("mid", ["FROM contextlab/base"]),
       ("leaf1", ["FROM contextlab/mid"]),
       ("leaf2", ["FROM contextlab/mid"])] }

/-- Discovery order used with `fsA`. -/
def orderA : List String := ["mid", "leaf1", "leaf2"]

/-- The tree `buildTree` constructs from `fsA`. -/
def stA : ImageTree :=
  { images :=
      [("base",
        { name := "base", parent := none, children := ["mid"],
          python_compat := true, dirpath := none }),
       ("mid",
        { name := "mid", parent := some "base", children := ["leaf1", "leaf2"],
          python_compat := true, dirpath := some "mid" }),
       ("leaf1",
        { name := "leaf1", parent := some "mid", children := [],
          python_compat := true, dirpath := some "leaf1" }),
       ("leaf2",
        { name := "leaf2", parent := some "mid", children := [],
          python_compat := true, dirpath := some "leaf2" })],
    root_image := some "base",
    python_version := none }

/-- The stored synthetic root of `stA`. -/
def baseImgA : Image :=
  { name := "base", parent := none, children := ["mid"],
    python_compat := true, dirpath := none }

/-- Same filesystem but `mid` pins its parent to tag `3.8`. -/
def fsB : FileSystem :=
  { dirs := ["mid", "leaf1", "leaf2"],
    dockerfiles :=
      [("mid", ["FROM contextlab/base:3.8"]),
       ("leaf1", ["FROM contextlab/mid"]),
       ("leaf2", ["FROM contextlab/mid"])] }

/-- The tree `buildTree` constructs from `fsB` with target version `3.9`:
`mid` and its descendants are incompatible. -/
def stB : ImageTree :=
  { images :=
      [("base",
        { name := "base", parent := none, children := ["mid"],
          python_compat := true, dirpath := none }),
       ("mid",
        { name := "mid", parent := some "base", children := ["leaf1", "leaf2"],
          python_compat := false, dirpath := some "mid" }),
       ("leaf1",
        { name := "leaf1", parent := some "mid", children := [],
          python_compat := false, dirpath := some "leaf1" }),
       ("leaf2",
        { name := "leaf2", parent := some "mid", children := [],
          python_compat := false, dirpath := some "leaf2" })],
    root_image := some "base",
    python_version := some "3.9" }

/-- The stored incompatible node `mid` of `stB`. -/
def midImgB : Image :=
  { name := "mid", parent := some "base", children := ["leaf1", "leaf2"],
    python_compat := false, dirpath := some "mid" }

/-- The stored node `mid` of `stA`. -/
def midImgA : Image :=
  { name := "mid", parent := some "base", children := ["leaf1", "leaf2"],
    python_compat := true, dirpath := some "mid" }

/-- The stored node `leaf1` of `stA`. -/
def leaf1ImgA : Image :=
  { name := "leaf1", parent := some "mid", children := [],
    python_compat := true, dirpath := some "leaf1" }

/-- The stored node `leaf2` of `stA`. -/
def leaf2ImgA : Image :=
  { name := "leaf2", parent := some "mid", children := [],
    python_compat := true, dirpath := some "leaf2" }

/-- The tree state an operation leaves behind, whether it returns or
raises. -/
def stateOf {α : Type} : PyResult α → ImageTree
  | .ok _ st => st
  | .err _ st => st

/-- Everything `get_image(name, create_new=True)` guarantees when it
returns: the invariant still holds, the name is now stored, no stored name
was dropped, the pending stack is still unstored, and every new name lies
on the parse-parent chain from `n`. -/
def GetPost (fs : FileSystem) (pyv : Option String) (P : List String)
    (n : String) (st st' : ImageTree) (img : Image) : Prop :=
  BaseInv fs pyv st' ∧ lookupImage st'.images n = some img ∧
  PreservesKeys st st' ∧
  (∀ x ∈ P, lookupImage st'.images x = none) ∧
  (∀ k, (lookupImage st'.images k).isSome = true →
    (lookupImage st.images k).isSome = true ∨ Reaches fs pyv n k)

/-- Everything `link_images(parent, child)` guarantees for a pending child
(the child object is not yet stored): the invariant holds except for the
single dangling child edge, the parent is stored with the child's name in
its children, and the returned child object only gains its parent pointer
and the propagated compatibility flag. -/
def LinkPost (fs : FileSystem) (pyv : Option String) (Q : List String)
    (pn : String) (ch : Image) (st st' : ImageTree) (ch' : Image) : Prop :=
  st'.python_version = pyv ∧
  (∀ m mi, lookupImage st'.images m = some mi → EntryOk fs pyv st' m mi) ∧
  ChildIn fs pyv st' ∧ NoDanglingExcept st' [ch.name] ∧
  RootOkExcept fs st' [] ∧ PreservesKeys st st' ∧
  (∀ x ∈ Q, lookupImage st'.images x = none) ∧
  (∀ k, (lookupImage st'.images k).isSome = true →
    (lookupImage st.images k).isSome = true ∨ Reaches fs pyv pn k) ∧
  (∃ pimg', lookupImage st'.images pn = some pimg' ∧ ch.name ∈ pimg'.children ∧
    ch'.name = ch.name ∧ ch'.parent = some pn ∧ ch'.children = ch.children ∧
    ch'.dirpath = ch.dirpath ∧
    ch'.python_compat = (ch.python_compat && pimg'.python_compat))

/-- Everything a first registration (`add_to_tree` on a fresh node)
guarantees: the invariant holds except for dangling references to the
node itself, and the returned node object satisfies the per-entry
invariant, ready to be stored. -/
def AddPost (fs : FileSystem) (pyv : Option String) (Q : List String)
    (n : String) (st st' : ImageTree) (img' : Image) : Prop :=
  st'.python_version = pyv ∧
  (∀ m mi, lookupImage st'.images m = some mi → EntryOk fs pyv st' m mi) ∧
  ChildIn fs pyv st' ∧ NoDanglingExcept st' [n] ∧
  PreservesKeys st st' ∧
  (∀ x ∈ Q, lookupImage st'.images x = none) ∧
  (∀ k, (lookupImage st'.images k).isSome = true →
    (lookupImage st.images k).isSome = true ∨ Reaches fs pyv n k) ∧
  img'.name = n ∧ img'.children = [] ∧ EntryOk fs pyv st' n img' ∧
  (fs.dirs.contains n = true →
    RootOkExcept fs st' [] ∧
    (∀ p s2, parseOutcome fs pyv n = .ok (p, s2) →
      ∀ pimg, lookupImage st'.images p = some pimg → n ∈ pimg.children)) ∧
  (fs.dirs.contains n = false →
    st'.images = st.images ∧ st'.root_image = some n)

/-- The `get_image(create_new=True)` contract at a given fuel. -/
def MgetP (fuel : Nat) : Prop :=
  ∀ fs pyv st P n img st', BaseInv fs pyv st → StackOk fs pyv st P →
    (P = [] ∨ ∃ z, P.getLast? = some z ∧ ppLink fs pyv z n) →
    exec fs fuel st (.get_image n true) = .ok img st' →
    GetPost fs pyv P n st st' img

/-- The `create_image` contract at a given fuel. -/
def McreateP (fuel : Nat) : Prop :=
  ∀ fs pyv st P n img st', BaseInv fs pyv st → StackOk fs pyv st P →
    (P = [] ∨ ∃ z, P.getLast? = some z ∧ ppLink fs pyv z n) →
    lookupImage st.images n = none → n ∉ P →
    exec fs fuel st (.create_image n) = .ok img st' →
    GetPost fs pyv P n st st' img

/-- The first-registration (`add_to_tree` on a fresh node) contract at a
given fuel. -/
def MaddP (fuel : Nat) : Prop :=
  ∀ fs pyv st Q₀ n img' st', BaseInv fs pyv st →
    StackOk fs pyv st (Q₀ ++ [n]) →
    exec fs fuel st (.add_to_tree (newImage n)) = .ok img' st' →
    AddPost fs pyv (Q₀ ++ [n]) n st st' img'

/-- The `link_images` contract for a pending child at a given fuel. -/
def MlinkP (fuel : Nat) : Prop :=
  ∀ fs pyv st Q₀ ch pn s ch' st', BaseInv fs pyv st →
    StackOk fs pyv st (Q₀ ++ [ch.name]) →
    fs.dirs.contains ch.name = true →
    parseOutcome fs pyv ch.name = .ok (pn, s) →
    exec fs fuel st (.link_images pn ch) = .ok ch' st' →
    LinkPost fs pyv (Q₀ ++ [ch.name]) pn ch st st' ch'

/-- A different discovery order over the same Dockerfiles, with a
duplicate registration of `mid`. -/
def orderA2 : List String := ["leaf2", "mid", "leaf1", "mid"]

/-- The tree `buildTree` constructs from `fsA` under `orderA2`: same
shape as `stA`, different insertion and child-list order. -/
def stA2 : ImageTree :=
  { images :=
      [("base",
        { name := "base", parent := none, children := ["mid"],
          python_compat := true, dirpath := none }),
       ("mid",
        { name := "mid", parent := some "base", children := ["leaf2", "leaf1"],
          python_compat := true, dirpath := some "mid" }),
       ("leaf2",
        { name := "leaf2", parent := some "mid", children := [],
          python_compat := true, dirpath := some "leaf2" }),
       ("leaf1",
        { name := "leaf1", parent := some "mid", children := [],
          python_compat := true, dirpath := some "leaf1" })],
    root_image := some "base",
    python_version := none }

/-- The stored node `leaf1` of `stB`. -/
def leaf1ImgB : Image :=
  { name := "leaf1", parent := some "mid", children := [],
    python_compat := false, dirpath := some "leaf1" }

/-- The stored node `leaf2` of `stB`. -/
def leaf2ImgB : Image :=
  { name := "leaf2", parent := some "mid", children := [],
    python_compat := false, dirpath := some "leaf2" }
theorem lookup_updateAssoc (l : List (String × Image)) (n m : String) (v : Image) :
    lookupImage (updateAssoc l n v) m = if n = m then some v else lookupImage l m := by
  induction l with
  | nil => simp [updateAssoc, lookupImage]
  | cons kv rest ih =>
    obtain ⟨k, old⟩ := kv
    by_cases hk : k = n
    · subst hk
      simp only [updateAssoc, if_pos rfl, lookupImage]
      by_cases hm : k = m
      · simp [hm]
      · simp [hm]
    · simp only [updateAssoc, if_neg hk, lookupImage]
      by_cases hm : k = m
      · subst hm
        have hnm : n ≠ k := fun h => hk h.symm
        simp [hnm]
      · simp [hm, ih]

theorem updateAssoc_self (l : List (String × Image)) (p : String) (v : Image)
    (h : lookupImage l p = some v) : updateAssoc l p v = l := by
  induction l with
  | nil => simp [lookupImage] at h
  | cons kv rest ih =>
    obtain ⟨k, old⟩ := kv
    by_cases hk : k = p
    · subst hk
      have h' : old = v := by simpa [lookupImage] using h
      subst h'
      simp [updateAssoc]
    · simp only [lookupImage, if_neg hk] at h
      simp [updateAssoc, hk, ih h]

/-- C5: for every tree and every name, `get_image` with `create_new=False`
returns the stored node when the name is in the mapping, and otherwise
fails with a not-found error whose message lists every name currently in
the mapping; in both cases the tree state is returned unchanged. -/
theorem get_image_lookup_spec (fs : FileSystem) (fuel : Nat) (st : ImageTree)
    (n : String) :
    (∀ img, lookupImage st.images n = some img →
      exec fs (fuel + 1) st (.get_image n false) = .ok img st) ∧
    (lookupImage st.images n = none →
      exec fs (fuel + 1) st (.get_image n false) =
        .err (.valueError ("No Image named " ++ n ++ " in:" ++
          String.intercalate ", " (imageKeys st))) st) := by
  constructor
  · intro img h
    simp [exec, h]
  · intro h
    simp [exec, h]

theorem get_image_lookup_spec_witness :
    exec fsA 11 stA (.get_image "mid" false) = .ok midImgA stA ∧
    exec fsA 11 stA (.get_image "nope" false) =
      .err (.valueError "No Image named nope in:base, mid, leaf1, leaf2") stA := by
  constructor
  · exact (get_image_lookup_spec fsA 10 stA "mid").1 midImgA rfl
  · exact (get_image_lookup_spec fsA 10 stA "nope").2 rfl


/-- compat factor lemma -/
theorem parse_compat_factor (pyv : Option String) (c : Bool) (lines : List String) :
    parse_parent_from_dockerfile pyv c lines =
      (parse_parent_from_dockerfile pyv true lines).map
        (fun ps => (ps.1, c && ps.2)) := by
  unfold parse_parent_from_dockerfile
  cases h : resolvedParentInfo lines with
  | none => rfl
  | some info =>
    simp only
    cases hsplit : splitImageTag (pyReplace info "contextlab/" "") with
    | mk pi tag =>
      cases tag with
      | none => simp [Except.map]
      | some t =>
        cases ht : t.data with
        | nil => dsimp only; rw [ht]; simp [Except.map]
        | cons c0 cs => dsimp only; rw [ht]; simp [Except.map, Bool.and_comm]

/-- C2: whenever the parse of a definition file resolves a parent
reference, the parent identifier returned is the pre-colon part of the
stripped reference, and the resulting compatibility flag is `false`
exactly when the split produced a tag that is present, starts with a
digit, and differs from the target version; otherwise the incoming flag
is passed through unchanged. -/
theorem parse_compat_update_spec (pyv : Option String) (compat : Bool)
    (lines : List String) (info p : String) (c' : Bool)
    (hinfo : resolvedParentInfo lines = some info)
    (h : parse_parent_from_dockerfile pyv compat lines = .ok (p, c')) :
    p = (splitImageTag (pyReplace info "contextlab/" "")).1 ∧
    c' = (if specTagIncompatible pyv
            (splitImageTag (pyReplace info "contextlab/" "")).2 = true
          then false else compat) := by
  unfold parse_parent_from_dockerfile at h
  rw [hinfo] at h
  dsimp only at h
  cases hsplit : splitImageTag (pyReplace info "contextlab/" "") with
  | mk pi tag =>
    rw [hsplit] at h
    cases tag with
    | none =>
      simp only at h
      cases h
      simp [specTagIncompatible]
    | some t =>
      dsimp only at h
      cases ht : t.data with
      | nil => rw [ht] at h; cases h
      | cons c0 cs =>
        rw [ht] at h
        simp only [Except.ok.injEq, Prod.mk.injEq] at h
        obtain ⟨hp, hc⟩ := h
        subst hp
        constructor
        · rfl
        · rw [← hc]
          simp [specTagIncompatible, ht]

theorem parse_compat_update_spec_witness :
    "base" = (splitImageTag (pyReplace "contextlab/base:3.8" "contextlab/" "")).1 ∧
    false = (if specTagIncompatible (some "3.9")
               (splitImageTag (pyReplace "contextlab/base:3.8" "contextlab/" "")).2 = true
             then false else true) :=
  parse_compat_update_spec (some "3.9") true ["FROM contextlab/base:3.8"]
    "contextlab/base:3.8" "base" false rfl rfl

/-- C8: parsing fails with a propagated `StopIteration` when no line of
the file starts with the `FROM` directive, or when the reference is a
`$`-substitution and no matching `ARG name=` line exists; such a parse
error makes `add_to_tree` fail without recording any link, and the
construction loop propagates that error, aborting construction. -/
theorem parse_failure_spec (pyv : Option String) (compat : Bool)
    (lines : List String) :
    ((∀ l ∈ lines, pyStartsWith "FROM" l = false) →
      parse_parent_from_dockerfile pyv compat lines = .error .stopIteration) ∧
    (∀ info, rawParentInfo lines = some info → startsWithChar info '$' = true →
      (∀ l ∈ lines, pyStartsWith ("ARG " ++ stripDollars info ++ "=") l = false) →
      parse_parent_from_dockerfile pyv compat lines = .error .stopIteration) ∧
    (∀ fs st img d e fuel, img.dirpath = some d → fs.dirs.contains d = true →
      (fs.dockerfiles.lookup d : Option (List String)) = some lines →
      parse_parent_from_dockerfile st.python_version img.python_compat lines =
        .error e →
      exec fs (fuel + 1) st (.add_to_tree img) = .err e st) ∧
    (∀ fs fuel st n rest img st' e st'',
      exec fs fuel st (.get_image n true) = .ok img st' →
      exec fs fuel st' (.add_to_tree img) = .err e st'' →
      create_tree fs fuel st (n :: rest) = .err e st'') := by
  refine ⟨?_, ?_, ?_, ?_⟩
  · intro hno
    have hfind : fromLineOf lines = none := by
      unfold fromLineOf
      rw [List.find?_eq_none]
      intro x hx
      simp [hno x hx]
    unfold parse_parent_from_dockerfile resolvedParentInfo rawParentInfo
    rw [hfind]
    rfl
  · intro info hraw hdollar hno
    have hfind :
        (lines.find?
          (fun l => pyStartsWith ("ARG " ++ stripDollars info ++ "=") l)) = none := by
      rw [List.find?_eq_none]
      intro x hx
      simp [hno x hx]
    unfold parse_parent_from_dockerfile resolvedParentInfo
    rw [hraw]
    dsimp only
    rw [if_pos hdollar]
    unfold valueFromArg
    dsimp only
    rw [hfind]
    rfl
  · intro fs st img d e fuel hdir hcontains hdf hparse
    have hmem : d ∈ fs.dirs := by simpa using hcontains
    simp [exec, hdir, hmem, hdf, hparse]
  · intro fs fuel st n rest img st' e st'' hget hadd
    simp [create_tree, hget, hadd]

theorem parse_failure_spec_witness :
    parse_parent_from_dockerfile none true ["RUN echo hi"] =
      .error .stopIteration ∧
    parse_parent_from_dockerfile none true ["FROM $BASE"] =
      .error .stopIteration := by
  constructor
  · exact (parse_failure_spec none true ["RUN echo hi"]).1 (by decide)
  · exact (parse_failure_spec none true ["FROM $BASE"]).2.1 "$BASE" rfl rfl
      (by decide)

theorem splitOnCharList_ne_nil (c : Char) (l : List Char) :
    splitOnCharList c l ≠ [] := by
  induction l with
  | nil => simp [splitOnCharList]
  | cons x xs ih =>
    simp only [splitOnCharList]
    by_cases hx : x = c
    · simp [hx]
    · simp only [if_neg hx]
      cases h : splitOnCharList c xs with
      | nil => exact absurd h ih
      | cons a t => simp

theorem splitOnCharList_count_zero (c : Char) (l : List Char)
    (h : l.count c = 0) : splitOnCharList c l = [l] := by
  induction l with
  | nil => rfl
  | cons x xs ih =>
    have hx : ¬x = c := by
      intro he
      subst he
      simp [List.count_cons] at h
    have hxs : xs.count c = 0 := by
      simpa [List.count_cons, hx] using h
    simp only [splitOnCharList, if_neg hx, ih hxs]

theorem splitOnCharList_count_one (c : Char) (l : List Char)
    (h : l.count c = 1) :
    splitOnCharList c l =
      [l.takeWhile (fun a => a ≠ c), (l.dropWhile (fun a => a ≠ c)).tail] := by
  induction l with
  | nil => simp at h
  | cons x xs ih =>
    by_cases hx : x = c
    · subst hx
      have hxs : xs.count x = 0 := by simpa [List.count_cons] using h
      simp [splitOnCharList, splitOnCharList_count_zero x xs hxs,
        List.takeWhile, List.dropWhile]
    · have hxs : xs.count c = 1 := by simpa [List.count_cons, hx] using h
      simp only [splitOnCharList, if_neg hx, ih hxs, List.takeWhile,
        List.dropWhile]
      simp [hx]

theorem splitOnCharList_length (c : Char) (l : List Char) :
    (splitOnCharList c l).length = l.count c + 1 := by
  induction l with
  | nil => simp [splitOnCharList]
  | cons x xs ih =>
    simp only [splitOnCharList]
    by_cases hx : x = c
    · subst hx
      simp [List.count_cons, ih]
    · simp only [if_neg hx]
      cases h : splitOnCharList c xs with
      | nil => exact absurd h (splitOnCharList_ne_nil c xs)
      | cons a t =>
        rw [h] at ih
        simp only [List.length_cons] at ih ⊢
        simp [List.count_cons, hx, ih]

/-- C4 amended: the split yields a (name, tag) pair only when the
stripped reference contains exactly one colon, in which case the name is
the part before that colon and the tag the part after it; with no colon
or with two or more colons the whole string is kept as the name and the
tag is absent, and this is not an error — the parse returns the unsplit
string as the parent identifier. The claim's "split on the first
colon" is wrong for references with two or more colons. -/
theorem split_image_tag_spec (s : String) :
    (colonCount s = 1 →
      splitImageTag s = (beforeColon s, some (afterColon s))) ∧
    (colonCount s ≠ 1 → splitImageTag s = (s, none)) ∧
    (∀ pyv compat lines info, resolvedParentInfo lines = some info →
      colonCount (pyReplace info "contextlab/" "") ≠ 1 →
      parse_parent_from_dockerfile pyv compat lines =
        .ok (pyReplace info "contextlab/" "", compat)) := by
  have main : ∀ t : String, colonCount t ≠ 1 → splitImageTag t = (t, none) := by
    intro t ht
    unfold splitImageTag
    cases hr : splitOnCharList ':' t.data with
    | nil => exact absurd hr (splitOnCharList_ne_nil ':' t.data)
    | cons a r1 =>
      cases r1 with
      | nil => rfl
      | cons b r2 =>
        cases r2 with
        | nil =>
          exfalso
          apply ht
          have hlen := splitOnCharList_length ':' t.data
          rw [hr] at hlen
          simpa [colonCount] using hlen.symm
        | cons d r3 => rfl
  refine ⟨?_, main s, ?_⟩
  · intro h1
    unfold splitImageTag
    rw [splitOnCharList_count_one ':' s.data (by simpa [colonCount] using h1)]
    rfl
  · intro pyv compat lines info hinfo hcc
    unfold parse_parent_from_dockerfile
    rw [hinfo]
    dsimp only
    rw [main _ hcc]

/-- C4 counterexample: the reference `python:3.9:extra` contains a
colon, yet the parse does not return the substring before the first
colon (`python`) as the parent identifier — the two-colon unpacking
raises and is swallowed, so the whole string is returned with no tag. -/
theorem split_first_colon_cex :
    parse_parent_from_dockerfile none true
        ["FROM contextlab/python:3.9:extra"] =
      .ok ("python:3.9:extra", true) ∧
    beforeColon "python:3.9:extra" = "python" ∧
    ("python:3.9:extra" : String) ≠ "python" :=
  ⟨rfl, rfl, by decide⟩

theorem split_image_tag_spec_witness :
    splitImageTag "python:3.9:extra" = ("python:3.9:extra", none) ∧
    splitImageTag "mid:3.8" = ("mid", some "3.8") := by
  constructor
  · exact (split_image_tag_spec "python:3.9:extra").2.1 (by decide)
  · have h := (split_image_tag_spec "mid:3.8").1 (by decide)
    simpa [beforeColon, afterColon] using h

theorem keyByDepth_ok_all (st : ImageTree) (fuel : Nat) (l : List Image)
    (ks : List (Image × Nat)) (h : keyByDepth st fuel l = .ok ks) :
    ∀ x ∈ l, ∃ al, ancestors st fuel x = .ok al := by
  induction l generalizing ks with
  | nil => intro x hx; cases hx
  | cons a rest ih =>
    intro x hx
    unfold keyByDepth at h
    cases ha : ancestors st fuel a with
    | error e => rw [ha] at h; cases h
    | ok al =>
      rw [ha] at h
      cases hr : keyByDepth st fuel rest with
      | error e => rw [hr] at h; cases h
      | ok ks' =>
        rcases List.mem_cons.mp hx with rfl | hx'
        · exact ⟨al, ha⟩
        · exact ih ks' hr x hx'

theorem mem_dedupByName (deps : List Image) (img : Image) (seen : List String)
    (hmem : img ∈ deps)
    (huniq : ∀ y ∈ deps, y.name = img.name → y = img)
    (hseen : seen.contains img.name = false) :
    img ∈ dedupByName seen deps := by
  induction deps generalizing seen with
  | nil => cases hmem
  | cons x xs ih =>
    by_cases hxc : (seen.contains x.name : Bool) = true
    · have hne : x ≠ img := by
        intro he
        subst he
        rw [hxc] at hseen
        cases hseen
      have hmem' : img ∈ xs := by
        rcases List.mem_cons.mp hmem with rfl | h
        · exact absurd rfl hne
        · exact h
      simp only [dedupByName, hxc]
      exact ih seen hmem' (fun y hy he => huniq y (List.mem_cons_of_mem _ hy) he) hseen
    · have hxc' : seen.contains x.name = false := by simpa using hxc
      simp only [dedupByName, hxc']
      by_cases hximg : x = img
      · subst hximg
        exact List.mem_cons_self _ _
      · have hne : x.name ≠ img.name := by
          intro he
          exact hximg (huniq x (List.mem_cons_self _ _) he)
        have hmem' : img ∈ xs := by
          rcases List.mem_cons.mp hmem with rfl | h
          · exact absurd rfl hximg
          · exact h
        refine List.mem_cons_of_mem _ ?_
        refine ih (x.name :: seen) hmem' (fun y hy he => huniq y (List.mem_cons_of_mem _ hy) he) ?_
        simp only [List.contains_cons, Bool.or_eq_false_iff]
        constructor
        · simp only [beq_eq_false_iff_ne, ne_eq]
          exact fun h => hne (Eq.symm h)
        · exact hseen

/-- C10: calling `ancestors` on the root image — the node whose parent
reference is absent while the tree's `root_image` is set — never returns
a sequence for any fuel, and consequently `determine_rebuilds` cannot
succeed whenever the collected descendant set contains the root. -/
theorem ancestors_root_undefined (st : ImageTree) (img : Image) (r : String)
    (h1 : img.parent = none) (h2 : st.root_image = some r) :
    (∀ fuel l, ancestors st fuel img ≠ .ok l) ∧
    (∀ f2 edited deps out, collectDescendants st f2 edited = .ok deps →
      img ∈ deps → (∀ x ∈ deps, ∀ y ∈ deps, x.name = y.name → x = y) →
      determine_rebuilds st f2 edited ≠ .ok out) := by
  have part1 : ∀ fuel l, ancestors st fuel img ≠ .ok l := by
    intro fuel l h
    cases fuel with
    | zero => cases h
    | succ f =>
      unfold ancestors at h
      rw [h1, h2] at h
      simp only [reduceCtorEq, if_false] at h
  refine ⟨part1, ?_⟩
  intro f2 edited deps out hcol hmem huniq hdr
  unfold determine_rebuilds at hdr
  rw [hcol] at hdr
  dsimp only at hdr
  cases hk : keyByDepth st f2 (dedupByName [] deps) with
  | error e => rw [hk] at hdr; cases hdr
  | ok ks =>
    have hmd : img ∈ dedupByName [] deps :=
      mem_dedupByName deps img [] hmem
        (fun y hy he => huniq y hy img hmem he) rfl
    obtain ⟨al, hal⟩ := keyByDepth_ok_all st f2 (dedupByName [] deps) ks hk img hmd
    exact part1 f2 al hal

theorem ancestors_root_undefined_witness :
    ancestors stA 10 baseImgA ≠ .ok [] ∧
    determine_rebuilds stA 12 ["base"] ≠ .ok [] := by
  constructor
  · exact (ancestors_root_undefined stA baseImgA "base" rfl rfl).1 10 []
  · exact (ancestors_root_undefined stA baseImgA "base" rfl rfl).2 12 ["base"]
      [baseImgA, midImgA, leaf1ImgA, leaf2ImgA] [] rfl (by decide) (by decide)

/-- C6 amended: whenever `ancestors` does return a sequence, that
sequence is nonempty, ends with the node itself, starts at a node whose
parent reference equals the tree's root, and consecutive elements are
linked parent-to-child — so its length is the node's depth below the
root. The original claim's "for every node" fails on the root
itself, where `ancestors` raises instead of returning. -/
theorem ancestors_chain_spec (st : ImageTree)
    (hN : ∀ n i, lookupImage st.images n = some i → i.name = n) :
    ∀ (fuel : Nat) (img : Image) (l : List Image),
      ancestors st fuel img = .ok l →
      l ≠ [] ∧ l.getLast? = some img ∧
      (∀ a, l.head? = some a → a.parent = st.root_image) ∧
      List.Chain' (fun a b => b.parent = some a.name) l ∧
      (∀ x ∈ l, x = img ∨ lookupImage st.images x.name = some x) := by
  intro fuel
  induction fuel with
  | zero => intro img l h; cases h
  | succ f ih =>
    intro img l h
    unfold ancestors at h
    by_cases hroot : img.parent = st.root_image
    · rw [if_pos hroot] at h
      cases h
      refine ⟨by simp, by simp, ?_, by simp, by simp⟩
      intro a ha
      simp only [List.head?_cons, Option.some.injEq] at ha
      subst ha
      exact hroot
    · rw [if_neg hroot] at h
      cases hp : img.parent with
      | none => rw [hp] at h; cases h
      | some pn =>
        rw [hp] at h
        dsimp only at h
        cases hl : lookupImage st.images pn with
        | none => rw [hl] at h; cases h
        | some p =>
          rw [hl] at h
          dsimp only at h
          cases ha : ancestors st f p with
          | error e => rw [ha] at h; cases h
          | ok lp =>
            rw [ha] at h
            cases h
            obtain ⟨hne, hlast, hhead, hchain, hmem⟩ := ih p lp ha
            have hpname : p.name = pn := hN pn p hl
            refine ⟨by simp, ?_, ?_, ?_, ?_⟩
            · exact List.getLast?_concat _
            · intro a hha
              apply hhead
              cases lp with
              | nil => exact absurd rfl hne
              | cons y ys => simpa using hha
            · rw [List.chain'_append]
              refine ⟨hchain, List.chain'_singleton _, ?_⟩
              intro x hx y hy
              simp only [List.head?_cons, Option.mem_def, Option.some.injEq] at hy
              subst hy
              rw [hlast] at hx
              simp only [Option.mem_def, Option.some.injEq] at hx
              subst hx
              rw [hp, hpname]
            · intro x hx
              rcases List.mem_append.mp hx with hx' | hx'
              · rcases hmem x hx' with rfl | hstored
                · right; rw [hpname]; exact hl
                · right; exact hstored
              · left; simpa using hx'

/-- C6 counterexample: on the constructed tree `stA`, the stored root
`base` is a node of the tree, yet `ancestors` fails on it with an
`AttributeError` instead of returning the ordered chain the claim
promises for every node. -/
theorem ancestors_root_cex :
    buildTree fsA none orderA 12 = .ok () stA ∧
    lookupImage stA.images "base" = some baseImgA ∧
    ancestors stA 10 baseImgA = .error .attributeError :=
  ⟨rfl, rfl, rfl⟩

theorem ancestors_chain_spec_witness :
    [midImgA, leaf1ImgA] ≠ ([] : List Image) ∧
    [midImgA, leaf1ImgA].getLast? = some leaf1ImgA ∧
    (∀ a, [midImgA, leaf1ImgA].head? = some a → a.parent = stA.root_image) ∧
    List.Chain' (fun a b => b.parent = some a.name) [midImgA, leaf1ImgA] ∧
    (∀ x ∈ [midImgA, leaf1ImgA],
      x = leaf1ImgA ∨ lookupImage stA.images x.name = some x) := by
  refine ancestors_chain_spec stA ?_ 10 leaf1ImgA [midImgA, leaf1ImgA] rfl
  intro n i h
  simp only [stA, lookupImage] at h
  split_ifs at h with h1 h2 h3 h4 <;> (try cases h) <;> subst_vars <;> rfl

theorem compat_mono_aux : ∀ fuel : Nat,
    (∀ fs st m p st'', exec fs fuel st (.get_image m true) = .ok p st'' →
      lookupImage st''.images m = some p) ∧
    (∀ fs st m p st'', exec fs fuel st (.create_image m) = .ok p st'' →
      lookupImage st''.images m = some p) ∧
    (∀ fs st m cn n i, lookupImage st.images n = some i →
      i.python_compat = false →
      ∃ i', lookupImage (stateOf (exec fs fuel st (.get_image m cn))).images n =
          some i' ∧ i'.python_compat = false) ∧
    (∀ fs st m, lookupImage st.images m = none →
      ∀ n i, lookupImage st.images n = some i → i.python_compat = false →
      ∃ i', lookupImage (stateOf (exec fs fuel st (.create_image m))).images n =
          some i' ∧ i'.python_compat = false) ∧
    (∀ fs st img,
      (∀ n i, lookupImage st.images n = some i → i.python_compat = false →
        ∃ i', lookupImage (stateOf (exec fs fuel st (.add_to_tree img))).images n =
            some i' ∧ i'.python_compat = false) ∧
      (∀ img' st', exec fs fuel st (.add_to_tree img) = .ok img' st' →
        img.python_compat = false → img'.python_compat = false)) ∧
    (∀ fs st pn ch,
      (∀ n i, lookupImage st.images n = some i → i.python_compat = false →
        ∃ i', lookupImage (stateOf (exec fs fuel st (.link_images pn ch))).images n =
            some i' ∧ i'.python_compat = false) ∧
      (∀ ch' st', exec fs fuel st (.link_images pn ch) = .ok ch' st' →
        ch.python_compat = false → ch'.python_compat = false)) := by
  intro fuel
  induction fuel with
  | zero =>
    refine ⟨?_, ?_, ?_, ?_, ?_, ?_⟩
    · intro fs st m p st'' h; cases h
    · intro fs st m p st'' h; cases h
    · intro fs st m cn n i hn hc; exact ⟨i, hn, hc⟩
    · intro fs st m hm n i hn hc; exact ⟨i, hn, hc⟩
    · intro fs st img
      exact ⟨fun n i hn hc => ⟨i, hn, hc⟩, fun img' st' h => by cases h⟩
    · intro fs st pn ch
      exact ⟨fun n i hn hc => ⟨i, hn, hc⟩, fun ch' st' h => by cases h⟩
  | succ f ih =>
    obtain ⟨ihGg, ihGc, ihg, ihc, iha, ihl⟩ := ih
    have hGc : ∀ fs st m p st'',
        exec fs (f + 1) st (.create_image m) = .ok p st'' →
        lookupImage st''.images m = some p := by
      intro fs st m p st'' h
      unfold exec at h
      cases hadd : exec fs f st (.add_to_tree (newImage m)) with
      | ok img' st' =>
        rw [hadd] at h
        dsimp only at h
        cases h
        simp [insertImage, lookup_updateAssoc]
      | err e st' => rw [hadd] at h; cases h
    have hGg : ∀ fs st m p st'',
        exec fs (f + 1) st (.get_image m true) = .ok p st'' →
        lookupImage st''.images m = some p := by
      intro fs st m p st'' h
      unfold exec at h
      cases hm : lookupImage st.images m with
      | some q => rw [hm] at h; dsimp only at h; cases h; exact hm
      | none =>
        rw [hm] at h
        dsimp only at h
        rw [if_pos rfl] at h
        exact ihGc fs st m p st'' h
    have hlink : ∀ fs st pn ch,
        (∀ n i, lookupImage st.images n = some i → i.python_compat = false →
          ∃ i', lookupImage
              (stateOf (exec fs (f + 1) st (.link_images pn ch))).images n =
            some i' ∧ i'.python_compat = false) ∧
        (∀ ch' st', exec fs (f + 1) st (.link_images pn ch) = .ok ch' st' →
          ch.python_compat = false → ch'.python_compat = false) := by
      intro fs st pn ch
      constructor
      · intro n i hn hc
        unfold exec
        cases hget : exec fs f st (.get_image pn true) with
        | err e st'' =>
          obtain ⟨i', hi', hc'⟩ := ihg fs st pn true n i hn hc
          rw [hget] at hi'
          exact ⟨i', hi', hc'⟩
        | ok p st'' =>
          obtain ⟨i', hi', hc'⟩ := ihg fs st pn true n i hn hc
          rw [hget] at hi'
          simp only [stateOf] at hi'
          dsimp only [stateOf]
          simp only [insertImage, lookup_updateAssoc]
          by_cases hpn : pn = n
          · subst hpn
            have hp : lookupImage st''.images pn = some p := ihGg fs st pn p st'' hget
            have hcp : p.python_compat = false := by
              rw [hp] at hi'
              cases hi'
              exact hc'
            rw [if_pos rfl]
            exact ⟨_, rfl, hcp⟩
          · rw [if_neg hpn]
            exact ⟨i', hi', hc'⟩
      · intro ch' st' h hch
        unfold exec at h
        cases hget : exec fs f st (.get_image pn true) with
        | err e st'' => rw [hget] at h; cases h
        | ok p st'' =>
          rw [hget] at h
          dsimp only at h
          cases h
          by_cases hp : p.python_compat = true
          · simp [hp, hch]
          · simp [hp]
    refine ⟨hGg, hGc, ?_, ?_, ?_, hlink⟩
    · -- get_image state monotonicity
      intro fs st m cn n i hn hc
      unfold exec
      cases hm : lookupImage st.images m with
      | some q => exact ⟨i, hn, hc⟩
      | none =>
        dsimp only
        cases cn with
        | true =>
          rw [if_pos rfl]
          exact ihc fs st m hm n i hn hc
        | false => exact ⟨i, hn, hc⟩
    · -- create_image state monotonicity
      intro fs st m hm n i hn hc
      unfold exec
      cases hadd : exec fs f st (.add_to_tree (newImage m)) with
      | ok img' st' =>
        obtain ⟨i', hi', hc'⟩ := (iha fs st (newImage m)).1 n i hn hc
        rw [hadd] at hi'
        simp only [stateOf] at hi'
        dsimp only [stateOf]
        have hmn : m ≠ n := by
          intro he
          subst he
          rw [hm] at hn
          cases hn
        simp only [insertImage, lookup_updateAssoc]
        rw [if_neg hmn]
        exact ⟨i', hi', hc'⟩
      | err e st' =>
        obtain ⟨i', hi', hc'⟩ := (iha fs st (newImage m)).1 n i hn hc
        rw [hadd] at hi'
        exact ⟨i', hi', hc'⟩
    · -- add_to_tree
      intro fs st img
      constructor
      · intro n i hn hc
        unfold exec
        cases hd : img.dirpath with
        | none => exact ⟨i, hn, hc⟩
        | some d =>
          dsimp only
          by_cases hdir : (fs.dirs.contains d : Bool) = true
          · rw [if_pos hdir]
            cases hdf : (fs.dockerfiles.lookup d : Option (List String)) with
            | none => exact ⟨i, hn, hc⟩
            | some lines =>
              dsimp only
              cases hparse : parse_parent_from_dockerfile st.python_version
                  img.python_compat lines with
              | error e => exact ⟨i, hn, hc⟩
              | ok pc =>
                obtain ⟨pn, c'⟩ := pc
                dsimp only
                exact (ihl fs st pn
                  { img with python_compat := c', dirpath := some d }).1 n i hn hc
          · rw [if_neg hdir]
            exact ⟨i, hn, hc⟩
      · intro img' st' h hch
        unfold exec at h
        cases hd : img.dirpath with
        | none => rw [hd] at h; cases h
        | some d =>
          rw [hd] at h
          dsimp only at h
          by_cases hdir : (fs.dirs.contains d : Bool) = true
          · rw [if_pos hdir] at h
            cases hdf : (fs.dockerfiles.lookup d : Option (List String)) with
            | none => rw [hdf] at h; cases h
            | some lines =>
              rw [hdf] at h
              dsimp only at h
              cases hparse : parse_parent_from_dockerfile st.python_version
                  img.python_compat lines with
              | error e => rw [hparse] at h; cases h
              | ok pc =>
                obtain ⟨pn, c'⟩ := pc
                rw [hparse] at h
                dsimp only at h
                have hc' : c' = false := by
                  rw [parse_compat_factor, hch] at hparse
                  cases hp2 : parse_parent_from_dockerfile st.python_version
                      true lines with
                  | error e => rw [hp2] at hparse; cases hparse
                  | ok pc2 =>
                    rw [hp2] at hparse
                    simp [Except.map] at hparse
                    exact hparse.2
                exact (ihl fs st pn
                    { img with python_compat := c', dirpath := some d }).2 img' st' h
                  (by simp [hc'])
          · rw [if_neg hdir] at h
            cases h
            exact hch

/-- C7: a freshly created node's compatibility flag is `true`, and no
operation of the system — any single call, or the whole construction
loop — ever changes a stored node's compatibility flag from `false`
back to `true`. -/
theorem compat_default_monotone :
    (∀ n, (newImage n).python_compat = true) ∧
    (∀ fs fuel st c n i,
      (∀ m, c = CallK.create_image m → lookupImage st.images m = none) →
      lookupImage st.images n = some i → i.python_compat = false →
      ∃ i', lookupImage (stateOf (exec fs fuel st c)).images n = some i' ∧
        i'.python_compat = false) ∧
    (∀ fs fuel st order n i, lookupImage st.images n = some i →
      i.python_compat = false →
      ∃ i',
        lookupImage (stateOf (create_tree fs fuel st order)).images n = some i' ∧
        i'.python_compat = false) := by
  have hexec : ∀ fs fuel st (c : CallK) n i,
      (∀ m, c = CallK.create_image m → lookupImage st.images m = none) →
      lookupImage st.images n = some i → i.python_compat = false →
      ∃ i', lookupImage (stateOf (exec fs fuel st c)).images n = some i' ∧
        i'.python_compat = false := by
    intro fs fuel st c n i hmiss hn hc
    obtain ⟨hGg, hGc, hg, hcr, ha, hl⟩ := compat_mono_aux fuel
    cases c with
    | get_image m cn => exact hg fs st m cn n i hn hc
    | create_image m => exact hcr fs st m (hmiss m rfl) n i hn hc
    | add_to_tree img => exact (ha fs st img).1 n i hn hc
    | link_images pn ch => exact (hl fs st pn ch).1 n i hn hc
  refine ⟨fun n => rfl, hexec, ?_⟩
  intro fs fuel st order
  induction order generalizing st with
  | nil => intro n i hn hc; exact ⟨i, hn, hc⟩
  | cons n' rest ih =>
    intro n i hn hc
    obtain ⟨hGg, hGc, hg, hcr, ha, hl⟩ := compat_mono_aux fuel
    unfold create_tree
    cases hget : exec fs fuel st (.get_image n' true) with
    | err e st' =>
      obtain ⟨i1, h1, f1⟩ := hg fs st n' true n i hn hc
      rw [hget] at h1
      exact ⟨i1, h1, f1⟩
    | ok img st' =>
      obtain ⟨i1, h1, f1⟩ := hg fs st n' true n i hn hc
      rw [hget] at h1
      simp only [stateOf] at h1
      dsimp only
      cases hadd : exec fs fuel st' (.add_to_tree img) with
      | err e st'' =>
        obtain ⟨i2, h2, f2⟩ := (ha fs st' img).1 n i1 h1 f1
        rw [hadd] at h2
        exact ⟨i2, h2, f2⟩
      | ok img' st'' =>
        obtain ⟨i2, h2, f2⟩ := (ha fs st' img).1 n i1 h1 f1
        rw [hadd] at h2
        simp only [stateOf] at h2
        by_cases hn' : n' = n
        · subst hn'
          have himg : lookupImage st'.images n' = some img := hGg fs st n' img st' hget
          have himgi : img = i1 := by
            rw [himg] at h1
            cases h1
            rfl
          have hf' : img'.python_compat = false :=
            (ha fs st' img).2 img' st'' hadd (himgi ▸ f1)
          refine ih (insertImage st'' n' img') n' img' ?_ hf'
          simp [insertImage, lookup_updateAssoc]
        · refine ih (insertImage st'' n' img') n i2 ?_ f2
          simp [insertImage, lookup_updateAssoc, hn', h2]

theorem compat_default_monotone_witness :
    (newImage "mid").python_compat = true ∧
    (∃ i', lookupImage
        (stateOf (exec fsB 5 stB (.get_image "mid" false))).images "mid" =
        some i' ∧ i'.python_compat = false) ∧
    (∃ i', lookupImage
        (stateOf (create_tree fsB 12 stB ["mid"])).images "mid" =
        some i' ∧ i'.python_compat = false) := by
  refine ⟨compat_default_monotone.1 "mid", ?_, ?_⟩
  · exact compat_default_monotone.2.1 fsB 5 stB (.get_image "mid" false) "mid"
      midImgB (by intro m h; cases h) rfl rfl
  · exact compat_default_monotone.2.2 fsB 12 stB ["mid"] "mid" midImgB rfl rfl

theorem cycle_step (fs : FileSystem) (pyv : Option String) (m : String)
    (rest : List String) (h : CycleOk fs pyv (m :: rest)) :
    ∃ q rest2, ppLink fs pyv m q ∧ CycleOk fs pyv (q :: rest2) ∧
      (∀ x, x ∈ q :: rest2 → x ∈ m :: rest) := by
  cases rest with
  | nil =>
    unfold CycleOk at h
    simp only [List.cons_append, List.nil_append] at h
    have hmm : ppLink fs pyv m m := (List.chain'_cons.mp h).1
    exact ⟨m, [], hmm, by unfold CycleOk; simpa using h, fun x hx => hx⟩
  | cons q rs =>
    unfold CycleOk at h
    simp only [List.cons_append] at h
    have h1 := List.chain'_cons.mp h
    refine ⟨q, rs ++ [m], h1.1, ?_, ?_⟩
    · unfold CycleOk
      dsimp only
      rw [List.chain'_append]
      refine ⟨h1.2, List.chain'_singleton _, ?_⟩
      intro x hx y hy
      simp only [Option.mem_def] at hx hy
      have hx' : x = m := by
        have := List.getLast?_concat (a := m) (l := q :: rs)
        rw [List.cons_append] at this
        rw [this] at hx
        cases hx
        rfl
      have hy' : y = q := by
        simp only [List.head?_cons, Option.some.injEq] at hy
        exact hy.symm
      subst hx'
      subst hy'
      exact h1.1
    · intro x hx
      rcases List.mem_cons.mp hx with rfl | hx'
      · exact List.mem_cons_of_mem _ (List.mem_cons_self _ _)
      · rcases List.mem_append.mp hx' with hx'' | hx''
        · exact List.mem_cons_of_mem _ (List.mem_cons_of_mem _ hx'')
        · simp only [List.mem_singleton] at hx''
          subst hx''
          exact List.mem_cons_self _ _

theorem cycle_no_create (fs : FileSystem) (pyv : Option String) :
    ∀ fuel st m rest, st.python_version = pyv → CycleOk fs pyv (m :: rest) →
      (∀ x ∈ m :: rest, lookupImage st.images x = none) →
      ∀ v st', exec fs fuel st (.create_image m) ≠ .ok v st' := by
  intro fuel
  induction fuel using Nat.strong_induction_on with
  | _ fuel ih =>
    intro st m rest hpy hcyc hnone v st' h
    cases fuel with
    | zero => cases h
    | succ f =>
      unfold exec at h
      cases f with
      | zero => cases h
      | succ g =>
        obtain ⟨q, rest2, hpl, hcyc2, hsub⟩ := cycle_step fs pyv m rest hcyc
        obtain ⟨hdirm, s, hpo⟩ := hpl
        unfold parseOutcome at hpo
        cases hdf : (fs.dockerfiles.lookup m : Option (List String)) with
        | none => rw [hdf] at hpo; cases hpo
        | some lines =>
          rw [hdf] at hpo
          dsimp only at hpo
          have hadd : exec fs (g + 1) st (.add_to_tree (newImage m)) =
              exec fs g st (.link_images q
                { name := m, parent := none, children := [],
                  python_compat := s, dirpath := some m }) := by
            conv_lhs => unfold exec
            dsimp only [newImage]
            rw [if_pos hdirm, hdf]
            dsimp only
            rw [hpy, hpo]
          rw [hadd] at h
          cases g with
          | zero => cases h
          | succ k =>
            unfold exec at h
            cases k with
            | zero => cases h
            | succ j =>
              have hq : lookupImage st.images q = none :=
                hnone q (hsub q (List.mem_cons_self _ _))
              unfold exec at h
              rw [hq] at h
              dsimp only at h
              rw [if_pos rfl] at h
              cases hc : exec fs j st (.create_image q) with
              | ok p st'' =>
                exact ih j (by omega) st q rest2 hpy hcyc2
                  (fun x hx => hnone x (hsub x hx)) p st'' hc
              | err e st'' =>
                rw [hc] at h
                cases h

theorem lookup_insertImage (st : ImageTree) (n : String) (v : Image)
    (k : String) :
    lookupImage (insertImage st n v).images k =
      if n = k then some v else lookupImage st.images k := by
  simp [insertImage, lookup_updateAssoc]

theorem step_get (fuel : Nat) (Hc : McreateP fuel) : MgetP (fuel + 1) := by
  intro fs pyv st P n img st' hInv hStk hlink h
  unfold exec at h
  cases hn : lookupImage st.images n with
  | some q =>
    rw [hn] at h
    dsimp only at h
    cases h
    exact ⟨hInv, hn, fun k hk => hk, hStk.2, fun k hk => Or.inl hk⟩
  | none =>
    rw [hn] at h
    dsimp only at h
    rw [if_pos rfl] at h
    by_cases hnP : n ∈ P
    · exfalso
      obtain ⟨A, B, rfl⟩ := List.append_of_mem hnP
      have hchain : List.Chain' (ppLink fs pyv) (A ++ n :: B) := hStk.1
      have hchainNB : List.Chain' (ppLink fs pyv) (n :: B) :=
        (List.chain'_append.mp hchain).2.1
      rcases hlink with hPnil | ⟨z, hz, hzl⟩
      · exact absurd hPnil (by simp)
      · have hzlast : (n :: B).getLast? = some z := by
          rw [← List.getLast?_append_cons A n B]
          exact hz
        have hcyc : CycleOk fs pyv (n :: B) := by
          unfold CycleOk
          dsimp only
          rw [List.chain'_append]
          refine ⟨hchainNB, List.chain'_singleton _, ?_⟩
          intro x hx y hy
          simp only [Option.mem_def, List.head?_cons, Option.some.injEq] at hx hy
          subst hy
          rw [hzlast] at hx
          cases hx
          exact hzl
        exact cycle_no_create fs pyv fuel st n B hInv.1 hcyc
          (fun x hx => hStk.2 x (by
            rcases List.mem_cons.mp hx with rfl | hx'
            · exact hnP
            · exact List.mem_append.mpr (Or.inr (List.mem_cons_of_mem _ hx'))))
          img st' h
    · exact Hc fs pyv st P n img st' hInv hStk hlink hn hnP h

theorem EntryOk_transfer (fs : FileSystem) (pyv : Option String)
    (st₁ st₂ : ImageTree) (m : String) (mi : Image)
    (hE : EntryOk fs pyv st₁ m mi)
    (hpres : ∀ p pimg, lookupImage st₁.images p = some pimg →
      ∃ pimg', lookupImage st₂.images p = some pimg' ∧
        pimg'.python_compat = pimg.python_compat) :
    EntryOk fs pyv st₂ m mi := by
  obtain ⟨hname, hch, hrest⟩ := hE
  refine ⟨hname, hch, ?_⟩
  by_cases hdir : (fs.dirs.contains m : Bool) = true
  · rw [if_pos hdir] at hrest ⊢
    obtain ⟨p, s, pimg, hpo, hpar, hdp, hlook, hcomp⟩ := hrest
    obtain ⟨pimg', hlook', hcomp'⟩ := hpres p pimg hlook
    exact ⟨p, s, pimg', hpo, hpar, hdp, hlook', by rw [hcomp, hcomp']⟩
  · rw [if_neg hdir] at hrest ⊢
    exact hrest

theorem step_create (fuel : Nat) (Ha : MaddP fuel) : McreateP (fuel + 1) := by
  intro fs pyv st P n img st' hInv hStk hlink hn hnP h
  unfold exec at h
  cases hadd : exec fs fuel st (.add_to_tree (newImage n)) with
  | err e st₁ => rw [hadd] at h; cases h
  | ok imgA st₁ =>
    rw [hadd] at h
    dsimp only at h
    cases h
    have hStk' : StackOk fs pyv st (P ++ [n]) := by
      constructor
      · rw [List.chain'_append]
        refine ⟨hStk.1, List.chain'_singleton _, ?_⟩
        intro x hx y hy
        simp only [Option.mem_def, List.head?_cons, Option.some.injEq] at hx hy
        subst hy
        rcases hlink with hPnil | ⟨z, hz, hzl⟩
        · subst hPnil
          simp at hx
        · rw [hz] at hx
          cases hx
          exact hzl
      · intro x hx
        rcases List.mem_append.mp hx with hx' | hx'
        · exact hStk.2 x hx'
        · simp only [List.mem_singleton] at hx'
          subst hx'
          exact hn
    obtain ⟨hpy', hEnt, hChild, hNoD, hPres, hStkAv, hBound, hname, hchn,
      hEntP, hDirCase, hExtCase⟩ := Ha fs pyv st P n img st₁ hInv hStk' hadd
    have hnSt₁ : lookupImage st₁.images n = none :=
      hStkAv n (List.mem_append.mpr (Or.inr (List.mem_singleton.mpr rfl)))
    have hpresIns : ∀ p pimg, lookupImage st₁.images p = some pimg →
        lookupImage (insertImage st₁ n img).images p = some pimg := by
      intro p pimg hp
      rw [lookup_insertImage]
      have : n ≠ p := by
        intro he
        subst he
        rw [hnSt₁] at hp
        cases hp
      rw [if_neg this]
      exact hp
    refine ⟨⟨?_, ?_, ?_, ?_, ?_⟩, ?_, ?_, ?_, ?_⟩
    · -- python_version
      simpa [insertImage] using hpy'
    · -- entries
      intro m mi hm
      rw [lookup_insertImage] at hm
      by_cases hmn : n = m
      · subst hmn
        rw [if_pos rfl] at hm
        cases hm
        exact EntryOk_transfer fs pyv st₁ _ n img hEntP
          (fun p pimg hp => ⟨pimg, hpresIns p pimg hp, rfl⟩)
      · rw [if_neg hmn] at hm
        exact EntryOk_transfer fs pyv st₁ _ m mi (hEnt m mi hm)
          (fun p pimg hp => ⟨pimg, hpresIns p pimg hp, rfl⟩)
    · -- ChildIn
      intro c cimg p s hc hcd hcp pimg hp
      rw [lookup_insertImage] at hc hp
      by_cases hcn : n = c
      · subst hcn
        rw [if_pos rfl] at hc
        cases hc
        obtain ⟨p₀, s₀, pimg₀, hpo₀, _, _, hlook₀, _⟩ := by
          have := hEntP.2.2
          rw [if_pos hcd] at this
          exact this
        have hps : p = p₀ := by
          rw [hpo₀] at hcp
          cases hcp
          rfl
        subst hps
        have hpn : n ≠ p := by
          intro he
          subst he
          rw [hnSt₁] at hlook₀
          cases hlook₀
        rw [if_neg hpn] at hp
        exact (hDirCase hcd).2 p s hcp pimg hp
      · rw [if_neg hcn] at hc
        by_cases hpn : n = p
        · subst hpn
          exfalso
          obtain ⟨_, _, hrest⟩ := hEnt c cimg hc
          rw [if_pos hcd] at hrest
          obtain ⟨p₁, s₁, pimg₁, hpo₁, _, _, hlook₁, _⟩ := hrest
          have : p₁ = n := by
            rw [hpo₁] at hcp
            cases hcp
            rfl
          subst this
          rw [hnSt₁] at hlook₁
          cases hlook₁
        · rw [if_neg hpn] at hp
          exact hChild c cimg p s hc hcd hcp pimg hp
    · -- NoDangling
      intro m mi c hm hc
      rw [lookup_insertImage] at hm
      by_cases hmn : n = m
      · subst hmn
        rw [if_pos rfl] at hm
        cases hm
        rw [hchn] at hc
        cases hc
      · rw [if_neg hmn] at hm
        rcases hNoD m mi c hm hc with hs | hcn
        · left
          rw [lookup_insertImage]
          by_cases hcn : n = c
          · simp [hcn]
          · rw [if_neg hcn]
            exact hs
        · left
          simp only [List.mem_singleton] at hcn
          subst hcn
          rw [lookup_insertImage, if_pos rfl]
          rfl
    · -- RootOk
      intro r hr
      by_cases hdir : (fs.dirs.contains n : Bool) = true
      · have hR := (hDirCase hdir).1
        simp only [insertImage] at hr
        rcases hR r hr with ⟨hs, hnd⟩ | hmem
        · left
          refine ⟨?_, hnd⟩
          rw [lookup_insertImage]
          by_cases hrn : n = r
          · simp [hrn]
          · rw [if_neg hrn]
            exact hs
        · cases hmem
      · have hE := hExtCase (by simpa using hdir)
        simp only [insertImage] at hr
        rw [hE.2] at hr
        cases hr
        left
        constructor
        · rw [lookup_insertImage, if_pos rfl]
          rfl
        · simpa using hdir
    · -- lookup n
      rw [lookup_insertImage, if_pos rfl]
    · -- PreservesKeys
      intro k hk
      rw [lookup_insertImage]
      by_cases hkn : n = k
      · simp [hkn]
      · rw [if_neg hkn]
        exact hPres k hk
    · -- stack avoid P
      intro x hx
      rw [lookup_insertImage]
      have hxn : n ≠ x := by
        intro he
        subst he
        exact hnP hx
      rw [if_neg hxn]
      exact hStkAv x (List.mem_append.mpr (Or.inl hx))
    · -- keys bound
      intro k hk
      rw [lookup_insertImage] at hk
      by_cases hkn : n = k
      · subst hkn
        exact Or.inr Relation.ReflTransGen.refl
      · rw [if_neg hkn] at hk
        exact hBound k hk

theorem step_link (fuel : Nat) (Hg : MgetP fuel) : MlinkP (fuel + 1) := by
  intro fs pyv st Q₀ ch pn s ch' st' hInv hStk hdir hpo h
  unfold exec at h
  cases hget : exec fs fuel st (.get_image pn true) with
  | err e st₁ => rw [hget] at h; cases h
  | ok p st₁ =>
    rw [hget] at h
    dsimp only at h
    cases h
    have hlinkP : (Q₀ ++ [ch.name]) = [] ∨
        ∃ z, (Q₀ ++ [ch.name]).getLast? = some z ∧ ppLink fs pyv z pn :=
      Or.inr ⟨ch.name, List.getLast?_concat _, hdir, s, hpo⟩
    obtain ⟨hInv₁, hlookp, hPres₁, hAv₁, hBound₁⟩ :=
      Hg fs pyv st (Q₀ ++ [ch.name]) pn p st₁ hInv hStk hlinkP hget
    obtain ⟨hpy₁, hEnt₁, hChild₁, hNoD₁, hRoot₁⟩ := hInv₁
    have hchQ : ch.name ∈ Q₀ ++ [ch.name] :=
      List.mem_append.mpr (Or.inr (List.mem_singleton.mpr rfl))
    have hchNone : lookupImage st₁.images ch.name = none := hAv₁ _ hchQ
    have hpnQ : pn ∉ (Q₀ ++ [ch.name]) := by
      intro hmem
      rw [hAv₁ pn hmem] at hlookp
      cases hlookp
    have hEntp : EntryOk fs pyv st₁ pn p := hEnt₁ pn p hlookp
    have hguard : p.children.contains ch.name = false := by
      by_contra hcon
      have hb : p.children.contains ch.name = true := by
        cases hb2 : p.children.contains ch.name
        · exact absurd hb2 hcon
        · rfl
      have hmem : ch.name ∈ p.children := by simpa using hb
      rcases hNoD₁ pn p ch.name hlookp hmem with hs | hin
      · rw [hchNone] at hs
        cases hs
      · cases hin
    simp only [hguard, Bool.false_eq_true, if_false]
    have hTransfer : ∀ q qimg, lookupImage st₁.images q = some qimg →
        ∃ qimg', lookupImage (insertImage st₁ pn
            { p with children := p.children ++ [ch.name] }).images q =
          some qimg' ∧ qimg'.python_compat = qimg.python_compat ∧
          (∀ c ∈ qimg.children, c ∈ qimg'.children) := by
      intro q qimg hq
      rw [lookup_insertImage]
      by_cases hqp : pn = q
      · subst hqp
        rw [hlookp] at hq
        cases hq
        rw [if_pos rfl]
        exact ⟨_, rfl, rfl, fun c hc => List.mem_append.mpr (Or.inl hc)⟩
      · rw [if_neg hqp]
        exact ⟨qimg, hq, rfl, fun c hc => hc⟩
    refine ⟨?_, ?_, ?_, ?_, ?_, ?_, ?_, ?_, ?_⟩
    · simpa [insertImage] using hpy₁
    · -- entries
      intro m mi hm
      rw [lookup_insertImage] at hm
      by_cases hmp : pn = m
      · subst hmp
        rw [if_pos rfl] at hm
        cases hm
        obtain ⟨hnm, hchld, hrest⟩ := hEntp
        refine ⟨hnm, ?_, ?_⟩
        · intro c hc
          rcases List.mem_append.mp hc with hc' | hc'
          · exact hchld c hc'
          · simp only [List.mem_singleton] at hc'
            subst hc'
            exact ⟨hdir, s, hpo⟩
        · by_cases hdm : (fs.dirs.contains pn : Bool) = true
          · rw [if_pos hdm] at hrest ⊢
            obtain ⟨p₂, s₂, pimg₂, hpo₂, hpar₂, hdp₂, hlook₂, hcomp₂⟩ := hrest
            obtain ⟨pimg₂', hlook₂', hcomp₂', _⟩ := hTransfer p₂ pimg₂ hlook₂
            exact ⟨p₂, s₂, pimg₂', hpo₂, hpar₂, hdp₂, hlook₂',
              by rw [hcomp₂, hcomp₂']⟩
          · rw [if_neg hdm] at hrest ⊢
            exact hrest
      · rw [if_neg hmp] at hm
        exact EntryOk_transfer fs pyv st₁ _ m mi (hEnt₁ m mi hm)
          (fun q qimg hq =>
            (hTransfer q qimg hq).imp
              (fun qimg' hq' => ⟨hq'.1, hq'.2.1⟩))
    · -- ChildIn
      intro c cimg p₂ s₂ hc hcd hcp pimg hp
      rw [lookup_insertImage] at hc hp
      have hcSt₁ : ∃ cimg₁, lookupImage st₁.images c = some cimg₁ := by
        by_cases hcpn : pn = c
        · subst hcpn
          exact ⟨p, hlookp⟩
        · rw [if_neg hcpn] at hc
          exact ⟨cimg, hc⟩
      obtain ⟨cimg₁, hc₁⟩ := hcSt₁
      by_cases hppn : pn = p₂
      · subst hppn
        rw [if_pos rfl] at hp
        cases hp
        have : c ∈ p.children := hChild₁ c cimg₁ pn s₂ hc₁ hcd hcp p hlookp
        exact List.mem_append.mpr (Or.inl this)
      · rw [if_neg hppn] at hp
        exact hChild₁ c cimg₁ p₂ s₂ hc₁ hcd hcp pimg hp
    · -- NoDangling [ch.name]
      intro m mi c hm hc
      rw [lookup_insertImage] at hm
      by_cases hmp : pn = m
      · subst hmp
        rw [if_pos rfl] at hm
        cases hm
        simp only at hc
        rcases List.mem_append.mp hc with hc' | hc'
        · rcases hNoD₁ pn p c hlookp hc' with hs | hin
          · left
            rw [lookup_insertImage]
            by_cases hcp : pn = c
            · simp [hcp]
            · rw [if_neg hcp]
              exact hs
          · cases hin
        · right
          exact hc'
      · rw [if_neg hmp] at hm
        rcases hNoD₁ m mi c hm hc with hs | hin
        · left
          rw [lookup_insertImage]
          by_cases hcp : pn = c
          · simp [hcp]
          · rw [if_neg hcp]
            exact hs
        · cases hin
    · -- RootOk
      intro r hr
      simp only [insertImage] at hr
      rcases hRoot₁ r hr with ⟨hs, hnd⟩ | hin
      · left
        refine ⟨?_, hnd⟩
        rw [lookup_insertImage]
        by_cases hrp : pn = r
        · simp [hrp]
        · rw [if_neg hrp]
          exact hs
      · cases hin
    · -- PreservesKeys
      intro k hk
      rw [lookup_insertImage]
      by_cases hkp : pn = k
      · simp [hkp]
      · rw [if_neg hkp]
        exact hPres₁ k hk
    · -- stack avoid
      intro x hx
      rw [lookup_insertImage]
      have : pn ≠ x := by
        intro he
        subst he
        exact hpnQ hx
      rw [if_neg this]
      exact hAv₁ x hx
    · -- keys bound
      intro k hk
      rw [lookup_insertImage] at hk
      by_cases hkp : pn = k
      · subst hkp
        exact hBound₁ pn (by rw [hlookp]; rfl)
      · rw [if_neg hkp] at hk
        exact hBound₁ k hk
    · -- parent entry existential
      refine ⟨{ p with children := p.children ++ [ch.name] },
        ?_, ?_, ?_, ?_, ?_, ?_, ?_⟩
      · rw [lookup_insertImage, if_pos rfl]
      · exact List.mem_append.mpr (Or.inr (List.mem_singleton.mpr rfl))
      · by_cases hp : p.python_compat = true <;> simp [hp]
      · rfl
      · by_cases hp : p.python_compat = true <;> simp [hp]
      · by_cases hp : p.python_compat = true <;> simp [hp]
      · by_cases hp : p.python_compat = true <;> simp [hp]

theorem step_add (fuel : Nat) (Hl : MlinkP fuel) : MaddP (fuel + 1) := by
  intro fs pyv st Q₀ n img' st' hInv hStk h
  unfold exec at h
  dsimp only [newImage] at h
  by_cases hdir : (fs.dirs.contains n : Bool) = true
  · rw [if_pos hdir] at h
    cases hdf : (fs.dockerfiles.lookup n : Option (List String)) with
    | none => rw [hdf] at h; cases h
    | some lines =>
      rw [hdf] at h
      dsimp only at h
      rw [hInv.1] at h
      cases hparse : parse_parent_from_dockerfile pyv true lines with
      | error e => rw [hparse] at h; cases h
      | ok pc =>
        obtain ⟨pn, s⟩ := pc
        rw [hparse] at h
        dsimp only at h
        have hpo : parseOutcome fs pyv n = .ok (pn, s) := by
          unfold parseOutcome
          rw [hdf]
          exact hparse
        obtain ⟨hpy', hEnt', hChild', hNoD', hRoot', hPres', hAv', hBound',
            pimg', hlookpn, hchmem, hname', hpar', hchld', hdp', hcomp'⟩ :=
          Hl fs pyv st Q₀
            { name := n, parent := none, children := [],
              python_compat := s, dirpath := some n } pn s img' st' hInv hStk
            hdir hpo h
        refine ⟨hpy', hEnt', hChild', hNoD', hPres', hAv', ?_, hname', hchld',
          ?_, ?_, ?_⟩
        · intro k hk
          rcases hBound' k hk with hs' | hr
          · exact Or.inl hs'
          · exact Or.inr (Relation.ReflTransGen.head ⟨hdir, s, hpo⟩ hr)
        · -- EntryOk st' n img'
          refine ⟨hname', ?_, ?_⟩
          · intro c hc
            rw [hchld'] at hc
            cases hc
          · rw [if_pos hdir]
            exact ⟨pn, s, pimg', hpo, hpar', by rw [hdp'], hlookpn, by
              rw [hcomp']⟩
        · intro _
          refine ⟨hRoot', ?_⟩
          intro p₂ s₂ hpo₂ pimg hp
          have hpe : p₂ = pn := by
            rw [hpo] at hpo₂
            cases hpo₂
            rfl
          subst hpe
          rw [hlookpn] at hp
          cases hp
          exact hchmem
        · intro hfalse
          rw [hfalse] at hdir
          cases hdir
  · rw [if_neg hdir] at h
    cases h
    have hdirF : fs.dirs.contains n = false := by
      cases hb : fs.dirs.contains n
      · rfl
      · exact absurd hb hdir
    refine ⟨hInv.1, ?_, ?_, ?_, ?_, ?_, ?_, rfl, rfl, ?_, ?_, ?_⟩
    · intro m mi hm
      exact hInv.2.1 m mi hm
    · exact hInv.2.2.1
    · intro m mi c hm hc
      rcases hInv.2.2.2.1 m mi c hm hc with hs | hin
      · exact Or.inl hs
      · cases hin
    · intro k hk
      exact hk
    · intro x hx
      rcases List.mem_append.mp hx with hx' | hx'
      · exact hStk.2 x (List.mem_append.mpr (Or.inl hx'))
      · exact hStk.2 x (List.mem_append.mpr (Or.inr hx'))
    · intro k hk
      exact Or.inl hk
    · -- EntryOk for the external node
      refine ⟨rfl, ?_, ?_⟩
      · intro c hc
        cases hc
      · rw [if_neg (by rw [hdirF]; intro hx; cases hx)]
        exact ⟨rfl, rfl, rfl⟩
    · intro htrue
      rw [hdirF] at htrue
      cases htrue
    · intro _
      exact ⟨rfl, rfl⟩

theorem exec_contract : ∀ fuel : Nat,
    MgetP fuel ∧ McreateP fuel ∧ MaddP fuel ∧ MlinkP fuel := by
  intro fuel
  induction fuel with
  | zero =>
    refine ⟨?_, ?_, ?_, ?_⟩
    · intro fs pyv st P n img st' _ _ _ h; cases h
    · intro fs pyv st P n img st' _ _ _ _ _ h; cases h
    · intro fs pyv st Q₀ n img' st' _ _ h; cases h
    · intro fs pyv st Q₀ ch pn s ch' st' _ _ _ _ h; cases h
  | succ f ih =>
    exact ⟨step_get f ih.2.1, step_create f ih.2.2.1, step_add f ih.2.2.2,
      step_link f ih.1⟩

theorem add_reregister (fs : FileSystem) (pyv : Option String)
    (st : ImageTree) (img : Image) (fuel : Nat)
    (hInv : BaseInv fs pyv st)
    (hst : lookupImage st.images img.name = some img) :
    ∀ img' st', exec fs fuel st (.add_to_tree img) = .ok img' st' →
      img' = img ∧ st' = st := by
  obtain ⟨nm, pr, chl, pc, dp⟩ := img
  intro img' st' h
  have hE := hInv.2.1 _ _ hst
  obtain ⟨-, -, hrest⟩ := hE
  cases fuel with
  | zero => cases h
  | succ f =>
    unfold exec at h
    by_cases hdir : (fs.dirs.contains nm : Bool) = true
    · rw [if_pos (by exact hdir)] at hrest
      obtain ⟨p, s, pimg, hpo, hpar, hdp, hlookp, hcomp⟩ := hrest
      simp only at hpar hdp hcomp
      subst hpar
      subst hdp
      subst hcomp
      unfold parseOutcome at hpo
      cases hdf : (fs.dockerfiles.lookup nm : Option (List String)) with
      | none => rw [hdf] at hpo; cases hpo
      | some lines =>
        rw [hdf] at hpo
        dsimp only at hpo
        dsimp only at h
        rw [hdf] at h
        dsimp only at h
        rw [if_pos hdir] at h
        rw [hInv.1] at h
        have hparse2 : parse_parent_from_dockerfile pyv (s && pimg.python_compat)
            lines = .ok (p, s && pimg.python_compat) := by
          rw [parse_compat_factor, hpo]
          simp only [Except.map]
          have hb2 : (s && pimg.python_compat && s) = (s && pimg.python_compat) := by
            cases s <;> simp
          rw [hb2]
        rw [hparse2] at h
        dsimp only at h
        cases f with
        | zero => cases h
        | succ g =>
          unfold exec at h
          cases g with
          | zero => cases h
          | succ k =>
            unfold exec at h
            rw [hlookp] at h
            dsimp only at h
            have hmem : nm ∈ pimg.children := by
              refine hInv.2.2.1 nm _ p s hst hdir ?_ pimg hlookp
              unfold parseOutcome
              rw [hdf]
              exact hpo
            have hct : pimg.children.contains nm = true := by simpa using hmem
            rw [hct] at h
            simp only [if_true] at h
            cases hb : pimg.python_compat with
            | true =>
              rw [hb] at h
              simp only [Bool.and_true, if_true] at h
              cases h
              refine ⟨by simp, ?_⟩
              have hrec : ({ name := pimg.name, parent := pimg.parent, children := pimg.children, python_compat := true, dirpath := pimg.dirpath } : Image) = pimg := by
                rw [← hb]
              have hua : updateAssoc st.images p pimg = st.images :=
                updateAssoc_self _ _ _ hlookp
              simp [insertImage, hrec, hua]
            | false =>
              rw [hb] at h
              simp only [Bool.and_false, if_false] at h
              cases h
              refine ⟨by simp, ?_⟩
              have hrec : ({ name := pimg.name, parent := pimg.parent, children := pimg.children, python_compat := false, dirpath := pimg.dirpath } : Image) = pimg := by
                rw [← hb]
              have hua : updateAssoc st.images p pimg = st.images :=
                updateAssoc_self _ _ _ hlookp
              simp [insertImage, hrec, hua]
    · have hdirF : fs.dirs.contains nm = false := by
        cases hb : fs.dirs.contains nm
        · rfl
        · exact absurd hb hdir
      rw [if_neg (by rw [hdirF]; intro hx; cases hx)] at hrest
      obtain ⟨-, hdp, -⟩ := hrest
      simp only at hdp
      subst hdp
      cases h

theorem create_tree_inv (fs : FileSystem) (pyv : Option String) (fuel : Nat) :
    ∀ order st, BaseInv fs pyv st →
    ∀ st', create_tree fs fuel st order = .ok () st' →
    BaseInv fs pyv st' ∧ PreservesKeys st st' ∧
    (∀ n ∈ order, (lookupImage st'.images n).isSome = true) ∧
    (∀ k, (lookupImage st'.images k).isSome = true →
      (lookupImage st.images k).isSome = true ∨ InClosureL fs pyv order k) := by
  intro order
  induction order with
  | nil =>
    intro st hInv st' h
    cases h
    exact ⟨hInv, fun k hk => hk, fun n hn => absurd hn (List.not_mem_nil n),
      fun k hk => Or.inl hk⟩
  | cons n rest ih =>
    intro st hInv st' h
    unfold create_tree at h
    cases hget : exec fs fuel st (.get_image n true) with
    | err e st₁ => rw [hget] at h; cases h
    | ok img st₁ =>
      rw [hget] at h
      dsimp only at h
      obtain ⟨hInv₁, hlook₁, hPres₁, -, hBound₁⟩ :=
        (exec_contract fuel).1 fs pyv st [] n img st₁ hInv
          ⟨List.chain'_nil, fun x hx => absurd hx (List.not_mem_nil x)⟩
          (Or.inl rfl) hget
      cases hadd : exec fs fuel st₁ (.add_to_tree img) with
      | err e st₂ => rw [hadd] at h; cases h
      | ok img' st₂ =>
        rw [hadd] at h
        dsimp only at h
        have hname : img.name = n := (hInv₁.2.1 n img hlook₁).1
        have hre : img' = img ∧ st₂ = st₁ :=
          add_reregister fs pyv st₁ img fuel hInv₁ (by rw [hname]; exact hlook₁)
            img' st₂ hadd
        obtain ⟨rfl, rfl⟩ := hre
        have hins : insertImage st₂ n img' = st₂ := by
          unfold insertImage
          rw [updateAssoc_self _ _ _ hlook₁]
        rw [hins] at h
        obtain ⟨hInv', hPres', hOrd', hBound'⟩ := ih st₂ hInv₁ st' h
        refine ⟨hInv', fun k hk => hPres' k (hPres₁ k hk), ?_, ?_⟩
        · intro m hm
          rcases List.mem_cons.mp hm with rfl | hm'
          · exact hPres' m (by rw [hlook₁]; rfl)
          · exact hOrd' m hm'
        · intro k hk
          rcases hBound' k hk with hk₁ | hcl
          · rcases hBound₁ k hk₁ with hk₀ | hr
            · exact Or.inl hk₀
            · exact Or.inr ⟨n, List.mem_cons_self _ _, hr⟩
          · obtain ⟨m, hm, hr⟩ := hcl
            exact Or.inr ⟨m, List.mem_cons_of_mem _ hm, hr⟩

theorem buildTree_inv (fs : FileSystem) (pyv : Option String)
    (order : List String) (fuel : Nat) (st' : ImageTree)
    (h : buildTree fs pyv order fuel = .ok () st') :
    BaseInv fs pyv st' ∧
    (∀ n ∈ order, (lookupImage st'.images n).isSome = true) ∧
    (∀ k, (lookupImage st'.images k).isSome = true → InClosureL fs pyv order k) := by
  have hInv0 : BaseInv fs pyv
      { images := [], root_image := none, python_version := pyv } := by
    refine ⟨rfl, ?_, ?_, ?_, ?_⟩
    · intro m mi hm; cases hm
    · intro c cimg p s hc; cases hc
    · intro m mi c hm; cases hm
    · intro r hr; cases hr
  obtain ⟨hInv', hPres', hOrd', hBound'⟩ :=
    create_tree_inv fs pyv fuel order _ hInv0 st' h
  refine ⟨hInv', hOrd', ?_⟩
  intro k hk
  rcases hBound' k hk with hk0 | hcl
  · simp [lookupImage] at hk0
  · exact hcl

theorem closure_subset_keys (fs : FileSystem) (pyv : Option String)
    (st' : ImageTree) (order : List String) (hInv : BaseInv fs pyv st')
    (horder : ∀ n ∈ order, (lookupImage st'.images n).isSome = true) :
    ∀ x, InClosureL fs pyv order x →
      (lookupImage st'.images x).isSome = true := by
  rintro x ⟨n, hn, hr⟩
  induction hr with
  | refl => exact horder n hn
  | tail hab hbc ih =>
    rename_i b c
    obtain ⟨bimg, hbimg⟩ := Option.isSome_iff_exists.mp ih
    obtain ⟨hdirb, s, hpob⟩ := hbc
    obtain ⟨-, -, hE⟩ := hInv.2.1 _ _ hbimg
    rw [if_pos hdirb] at hE
    obtain ⟨p, s₂, pimg, hpo₂, -, -, hlookp, -⟩ := hE
    have hpc : p = c := by
      rw [hpob] at hpo₂
      cases hpo₂
      rfl
    subst hpc
    rw [hlookp]
    rfl

/-- C9: two constructions over the same filesystem whose discovery
orders contain the same names produce trees with the same key set, and
every name stored by both carries the same parent pointer and the same
set of child edges. -/
theorem tree_shape_order_independent (fs : FileSystem) (pyv : Option String)
    (o1 o2 : List String) (f1 f2 : Nat) (st1 st2 : ImageTree)
    (horder : ∀ n, n ∈ o1 ↔ n ∈ o2)
    (h1 : buildTree fs pyv o1 f1 = .ok () st1)
    (h2 : buildTree fs pyv o2 f2 = .ok () st2) :
    (∀ k, (lookupImage st1.images k).isSome = true ↔
      (lookupImage st2.images k).isSome = true) ∧
    (∀ n i1 i2, lookupImage st1.images n = some i1 →
      lookupImage st2.images n = some i2 →
      i1.parent = i2.parent ∧ (∀ c, c ∈ i1.children ↔ c ∈ i2.children)) := by
  obtain ⟨hInv1, hOrd1, hBound1⟩ := buildTree_inv fs pyv o1 f1 st1 h1
  obtain ⟨hInv2, hOrd2, hBound2⟩ := buildTree_inv fs pyv o2 f2 st2 h2
  have hkeys : ∀ k, (lookupImage st1.images k).isSome = true ↔
      (lookupImage st2.images k).isSome = true := by
    intro k
    constructor
    · intro hk
      obtain ⟨m, hm, hr⟩ := hBound1 k hk
      exact closure_subset_keys fs pyv st2 o2 hInv2 hOrd2 k
        ⟨m, (horder m).mp hm, hr⟩
    · intro hk
      obtain ⟨m, hm, hr⟩ := hBound2 k hk
      exact closure_subset_keys fs pyv st1 o1 hInv1 hOrd1 k
        ⟨m, (horder m).mpr hm, hr⟩
  refine ⟨hkeys, ?_⟩
  intro n i1 i2 hi1 hi2
  have hE1 := hInv1.2.1 n i1 hi1
  have hE2 := hInv2.2.1 n i2 hi2
  constructor
  · by_cases hdir : (fs.dirs.contains n : Bool) = true
    · obtain ⟨-, -, hr1⟩ := hE1
      obtain ⟨-, -, hr2⟩ := hE2
      rw [if_pos hdir] at hr1 hr2
      obtain ⟨p1, s1, pimg1, hpo1, hpar1, -, -, -⟩ := hr1
      obtain ⟨p2, s2, pimg2, hpo2, hpar2, -, -, -⟩ := hr2
      have : p1 = p2 := by
        rw [hpo1] at hpo2
        cases hpo2
        rfl
      rw [hpar1, hpar2, this]
    · obtain ⟨-, -, hr1⟩ := hE1
      obtain ⟨-, -, hr2⟩ := hE2
      rw [if_neg hdir] at hr1 hr2
      rw [hr1.1, hr2.1]
  · intro c
    constructor
    · intro hc
      obtain ⟨hdirc, s, hpoc⟩ := hE1.2.1 c hc
      have hstored1 : (lookupImage st1.images c).isSome = true := by
        rcases hInv1.2.2.2.1 n i1 c hi1 hc with hs | hin
        · exact hs
        · cases hin
      have hstored2 := (hkeys c).mp hstored1
      obtain ⟨ci2, hci2⟩ := Option.isSome_iff_exists.mp hstored2
      exact hInv2.2.2.1 c ci2 n s hci2 hdirc hpoc i2 hi2
    · intro hc
      obtain ⟨hdirc, s, hpoc⟩ := hE2.2.1 c hc
      have hstored2 : (lookupImage st2.images c).isSome = true := by
        rcases hInv2.2.2.2.1 n i2 c hi2 hc with hs | hin
        · exact hs
        · cases hin
      have hstored1 := (hkeys c).mpr hstored2
      obtain ⟨ci1, hci1⟩ := Option.isSome_iff_exists.mp hstored1
      exact hInv1.2.2.1 c ci1 n s hci1 hdirc hpoc i1 hi1

theorem tree_shape_order_independent_witness :
    ((lookupImage stA.images "leaf1").isSome = true ↔
      (lookupImage stA2.images "leaf1").isSome = true) ∧
    midImgA.parent = some "base" ∧
    (∀ c, c ∈ midImgA.children ↔
      c ∈ (["leaf2", "leaf1"] : List String)) := by
  obtain ⟨hkeys, hent⟩ := tree_shape_order_independent fsA none orderA orderA2
    12 12 stA stA2 (by intro n; simp [orderA, orderA2]; tauto) rfl rfl
  refine ⟨hkeys "leaf1", rfl, ?_⟩
  have := hent "mid" midImgA
    { name := "mid", parent := some "base", children := ["leaf2", "leaf1"],
      python_compat := true, dirpath := some "mid" } rfl rfl
  exact this.2

theorem descend_all_incompat (fs : FileSystem) (pyv : Option String)
    (st : ImageTree) (hInv : BaseInv fs pyv st) :
    ∀ f2 : Nat,
    (∀ img l, lookupImage st.images img.name = some img →
      img.python_compat = false → descendAux st f2 (.inl img) = .ok l →
      ∀ d ∈ l, d.python_compat = false) ∧
    (∀ cs l, (∀ c ∈ cs, ∃ ci, lookupImage st.images c = some ci ∧
        ci.python_compat = false) →
      descendAux st f2 (.inr cs) = .ok l →
      ∀ d ∈ l, d.python_compat = false) := by
  intro f2
  induction f2 with
  | zero =>
    constructor
    · intro img l _ _ h; cases h
    · intro cs l _ h; cases h
  | succ f ih =>
    constructor
    · intro img l hlook hcomp h
      unfold descendAux at h
      cases hd : descendAux st f (.inr img.children) with
      | error e => rw [hd] at h; cases h
      | ok descs =>
        rw [hd] at h
        dsimp only at h
        cases h
        have hchildren : ∀ c ∈ img.children, ∃ ci,
            lookupImage st.images c = some ci ∧ ci.python_compat = false := by
          intro c hc
          obtain ⟨hname, hch, -⟩ := hInv.2.1 _ _ hlook
          obtain ⟨hdirc, s, hpoc⟩ := hch c hc
          have hstored : (lookupImage st.images c).isSome = true := by
            rcases hInv.2.2.2.1 _ _ c hlook hc with hs | hin
            · exact hs
            · cases hin
          obtain ⟨ci, hci⟩ := Option.isSome_iff_exists.mp hstored
          refine ⟨ci, hci, ?_⟩
          obtain ⟨-, -, hrest⟩ := hInv.2.1 _ _ hci
          rw [if_pos hdirc] at hrest
          obtain ⟨p, s₂, pimg, hpo₂, -, -, hlookp, hcomp₂⟩ := hrest
          have hpn : p = img.name := by
            rw [hpoc] at hpo₂
            cases hpo₂
            rfl
          subst hpn
          rw [hlook] at hlookp
          cases hlookp
          rw [hcomp₂, hcomp]
          simp
        intro d hd'
        rcases List.mem_cons.mp hd' with rfl | hd''
        · exact hcomp
        · exact ih.2 img.children descs hchildren hd d hd''
    · intro cs l hcs h
      cases cs with
      | nil =>
        unfold descendAux at h
        cases h
        intro d hd
        cases hd
      | cons c cs' =>
        unfold descendAux at h
        obtain ⟨ci, hci, hcic⟩ := hcs c (List.mem_cons_self _ _)
        rw [hci] at h
        dsimp only at h
        cases hdc : descendAux st f (.inl ci) with
        | error e => rw [hdc] at h; cases h
        | ok ds =>
          rw [hdc] at h
          dsimp only at h
          cases hdr : descendAux st f (.inr cs') with
          | error e => rw [hdr] at h; cases h
          | ok rest =>
            rw [hdr] at h
            dsimp only at h
            cases h
            intro d hd
            rcases List.mem_append.mp hd with hd' | hd'
            · have hcin : lookupImage st.images ci.name = some ci := by
                have hname : ci.name = c := (hInv.2.1 c ci hci).1
                rw [hname]
                exact hci
              exact ih.1 ci ds hcin hcic hdc d hd'
            · exact ih.2 cs' rest
                (fun c' hc' => hcs c' (List.mem_cons_of_mem _ hc')) hdr d hd'

/-- C3: in every state reachable by construction, if a stored node's
compatibility flag is `false` then every node in its descendant list
(itself included) also has a `false` flag. -/
theorem compat_downward_closed (fs : FileSystem) (pyv : Option String)
    (order : List String) (fuel : Nat) (st : ImageTree)
    (hbuild : buildTree fs pyv order fuel = .ok () st) :
    ∀ n img, lookupImage st.images n = some img →
      img.python_compat = false →
      ∀ f2 l, descendants st f2 img = .ok l →
        ∀ d ∈ l, d.python_compat = false := by
  obtain ⟨hInv, -, -⟩ := buildTree_inv fs pyv order fuel st hbuild
  intro n img hlook hcomp f2 l hdesc
  have hname : img.name = n := (hInv.2.1 n img hlook).1
  exact (descend_all_incompat fs pyv st hInv f2).1 img l
    (by rw [hname]; exact hlook) hcomp hdesc

theorem compat_downward_closed_witness :
    leaf1ImgB.python_compat = false ∧ leaf2ImgB.python_compat = false := by
  have h := compat_downward_closed fsB (some "3.9") orderA 12 stB rfl
    "mid" midImgB rfl rfl 10 [midImgB, leaf1ImgB, leaf2ImgB] rfl
  exact ⟨h leaf1ImgB (by simp), h leaf2ImgB (by simp)⟩

theorem insortByKey_perm (x : Image × Nat) (l : List (Image × Nat)) :
    (insortByKey x l).Perm (x :: l) := by
  induction l with
  | nil => exact List.Perm.refl _
  | cons y ys ih =>
    unfold insortByKey
    by_cases hle : x.2 ≤ y.2
    · rw [if_pos hle]
    · rw [if_neg hle]
      exact (List.Perm.cons y ih).trans (List.Perm.swap x y ys)

theorem stableSortByKey_perm (l : List (Image × Nat)) :
    (stableSortByKey l).Perm l := by
  induction l with
  | nil => exact List.Perm.refl _
  | cons x xs ih =>
    unfold stableSortByKey
    exact (insortByKey_perm x _).trans (List.Perm.cons x ih)

theorem insortByKey_sorted (x : Image × Nat) (l : List (Image × Nat))
    (h : List.Pairwise (fun a b => a.2 ≤ b.2) l) :
    List.Pairwise (fun a b => a.2 ≤ b.2) (insortByKey x l) := by
  induction l with
  | nil => simp [insortByKey]
  | cons y ys ih =>
    unfold insortByKey
    by_cases hle : x.2 ≤ y.2
    · rw [if_pos hle]
      refine List.Pairwise.cons ?_ h
      intro z hz
      rcases List.mem_cons.mp hz with rfl | hz'
      · exact hle
      · exact le_trans hle (List.rel_of_pairwise_cons h hz')
    · rw [if_neg hle]
      have hyx : y.2 ≤ x.2 := le_of_not_le hle
      refine List.Pairwise.cons ?_ (ih (List.Pairwise.sublist (List.sublist_cons_self y ys) h))
      intro z hz
      have hz' := (insortByKey_perm x ys).mem_iff.mp hz
      rcases List.mem_cons.mp hz' with rfl | hz''
      · exact hyx
      · exact List.rel_of_pairwise_cons h hz''

theorem stableSortByKey_sorted (l : List (Image × Nat)) :
    List.Pairwise (fun a b => a.2 ≤ b.2) (stableSortByKey l) := by
  induction l with
  | nil => simp [stableSortByKey]
  | cons x xs ih => exact insortByKey_sorted x _ ih

theorem keyByDepth_facts (st : ImageTree) (f2 : Nat) :
    ∀ l ks, keyByDepth st f2 l = .ok ks →
      ks.map Prod.fst = l ∧
      ∀ p ∈ ks, ∃ al, ancestors st f2 p.1 = .ok al ∧ p.2 = al.length := by
  intro l
  induction l with
  | nil =>
    intro ks h
    cases h
    exact ⟨rfl, fun p hp => absurd hp (List.not_mem_nil p)⟩
  | cons a rest ih =>
    intro ks h
    unfold keyByDepth at h
    cases ha : ancestors st f2 a with
    | error e => rw [ha] at h; cases h
    | ok al =>
      rw [ha] at h
      dsimp only at h
      cases hr : keyByDepth st f2 rest with
      | error e => rw [hr] at h; cases h
      | ok ks' =>
        rw [hr] at h
        dsimp only at h
        cases h
        obtain ⟨hmap, hall⟩ := ih ks' hr
        refine ⟨by simp [hmap], ?_⟩
        intro p hp
        rcases List.mem_cons.mp hp with rfl | hp'
        · exact ⟨al, ha, rfl⟩
        · exact hall p hp'

theorem dedupByName_subset (seen : List String) (l : List Image) :
    ∀ x ∈ dedupByName seen l, x ∈ l := by
  induction l generalizing seen with
  | nil => intro x hx; cases hx
  | cons y ys ih =>
    intro x hx
    unfold dedupByName at hx
    by_cases hy : (seen.contains y.name : Bool) = true
    · rw [hy] at hx
      simp only [if_true] at hx
      exact List.mem_cons_of_mem _ (ih seen x hx)
    · have hy' : seen.contains y.name = false := by
        cases hb : seen.contains y.name
        · rfl
        · exact absurd hb hy
      rw [hy'] at hx
      simp only [Bool.false_eq_true, if_false] at hx
      rcases List.mem_cons.mp hx with rfl | hx'
      · exact List.mem_cons_self _ _
      · exact List.mem_cons_of_mem _ (ih (y.name :: seen) x hx')

theorem dedupByName_names (seen : List String) (l : List Image) :
    (∀ x ∈ dedupByName seen l, seen.contains x.name = false) ∧
    ((dedupByName seen l).map Image.name).Nodup := by
  induction l generalizing seen with
  | nil => exact ⟨fun x hx => absurd hx (List.not_mem_nil x), List.nodup_nil⟩
  | cons y ys ih =>
    unfold dedupByName
    by_cases hy : (seen.contains y.name : Bool) = true
    · rw [hy]
      simp only [if_true]
      exact ih seen
    · have hy' : seen.contains y.name = false := by
        cases hb : seen.contains y.name
        · rfl
        · exact absurd hb hy
      rw [hy']
      simp only [Bool.false_eq_true, if_false]
      obtain ⟨hnotin, hnodup⟩ := ih (y.name :: seen)
      constructor
      · intro x hx
        rcases List.mem_cons.mp hx with rfl | hx'
        · exact hy'
        · have := hnotin x hx'
          simp only [List.contains_cons, Bool.or_eq_false_iff] at this
          exact this.2
      · refine List.Nodup.cons ?_ hnodup
        intro hmem
        obtain ⟨x, hx, hxn⟩ := List.mem_map.mp hmem
        have := hnotin x hx
        simp only [List.contains_cons, Bool.or_eq_false_iff] at this
        rw [hxn] at this
        simp at this

theorem dedupByName_covers (seen : List String) (l : List Image) :
    ∀ x ∈ l, seen.contains x.name = false →
      ∃ y ∈ dedupByName seen l, y.name = x.name := by
  induction l generalizing seen with
  | nil => intro x hx; cases hx
  | cons z zs ih =>
    intro x hx hxs
    unfold dedupByName
    by_cases hz : (seen.contains z.name : Bool) = true
    · rw [hz]
      simp only [if_true]
      rcases List.mem_cons.mp hx with hxz0 | hx'
      · rw [hxz0, hz] at hxs; cases hxs
      · exact ih seen x hx' hxs
    · have hz' : seen.contains z.name = false := by
        cases hb : seen.contains z.name
        · rfl
        · exact absurd hb hz
      rw [hz']
      simp only [Bool.false_eq_true, if_false]
      rcases List.mem_cons.mp hx with hxz0 | hx'
      · exact ⟨z, List.mem_cons_self _ _, by rw [hxz0]⟩
      · by_cases hxz : x.name = z.name
        · exact ⟨z, List.mem_cons_self _ _, hxz.symm⟩
        · obtain ⟨y, hy, hyn⟩ := ih (z.name :: seen) x hx' (by
            simp only [List.contains_cons, Bool.or_eq_false_iff]
            constructor
            · simp only [beq_eq_false_iff_ne, ne_eq]
              exact hxz
            · exact hxs)
          exact ⟨y, List.mem_cons_of_mem _ hy, hyn⟩

theorem descend_stored (fs : FileSystem) (pyv : Option String)
    (st : ImageTree) (hInv : BaseInv fs pyv st) :
    ∀ f2 : Nat,
    (∀ img l, lookupImage st.images img.name = some img →
      descendAux st f2 (.inl img) = .ok l →
      ∀ x ∈ l, lookupImage st.images x.name = some x) ∧
    (∀ cs l, (∀ c ∈ cs, (lookupImage st.images c).isSome = true) →
      descendAux st f2 (.inr cs) = .ok l →
      ∀ x ∈ l, lookupImage st.images x.name = some x) := by
  intro f2
  induction f2 with
  | zero =>
    constructor
    · intro img l _ h; cases h
    · intro cs l _ h; cases h
  | succ f ih =>
    constructor
    · intro img l hlook h
      unfold descendAux at h
      cases hd : descendAux st f (.inr img.children) with
      | error e => rw [hd] at h; cases h
      | ok descs =>
        rw [hd] at h
        dsimp only at h
        cases h
        intro x hx
        rcases List.mem_cons.mp hx with rfl | hx'
        · exact hlook
        · refine ih.2 img.children descs ?_ hd x hx'
          intro c hc
          rcases hInv.2.2.2.1 _ _ c hlook hc with hs | hin
          · exact hs
          · cases hin
    · intro cs l hcs h
      cases cs with
      | nil =>
        unfold descendAux at h
        cases h
        intro x hx
        cases hx
      | cons c cs' =>
        unfold descendAux at h
        obtain ⟨ci, hci⟩ := Option.isSome_iff_exists.mp
          (hcs c (List.mem_cons_self _ _))
        rw [hci] at h
        dsimp only at h
        cases hdc : descendAux st f (.inl ci) with
        | error e => rw [hdc] at h; cases h
        | ok ds =>
          rw [hdc] at h
          dsimp only at h
          cases hdr : descendAux st f (.inr cs') with
          | error e => rw [hdr] at h; cases h
          | ok rest =>
            rw [hdr] at h
            dsimp only at h
            cases h
            intro x hx
            rcases List.mem_append.mp hx with hx' | hx'
            · have hcin : lookupImage st.images ci.name = some ci := by
                rw [(hInv.2.1 c ci hci).1]
                exact hci
              exact ih.1 ci ds hcin hdc x hx'
            · exact ih.2 cs' rest
                (fun c' hc' => hcs c' (List.mem_cons_of_mem _ hc')) hdr x hx'

theorem collect_stored (fs : FileSystem) (pyv : Option String)
    (st : ImageTree) (hInv : BaseInv fs pyv st) (f2 : Nat) :
    ∀ edited deps, collectDescendants st f2 edited = .ok deps →
      ∀ x ∈ deps, lookupImage st.images x.name = some x := by
  intro edited
  induction edited with
  | nil =>
    intro deps h
    cases h
    intro x hx
    cases hx
  | cons n ns ih =>
    intro deps h
    unfold collectDescendants at h
    cases hl : lookupOrError st n with
    | error e => rw [hl] at h; cases h
    | ok img =>
      rw [hl] at h
      dsimp only at h
      cases hd : descendants st f2 img with
      | error e => rw [hd] at h; cases h
      | ok ds =>
        rw [hd] at h
        dsimp only at h
        cases hr : collectDescendants st f2 ns with
        | error e => rw [hr] at h; cases h
        | ok rest =>
          rw [hr] at h
          dsimp only at h
          cases h
          have hlook : lookupImage st.images n = some img := by
            unfold lookupOrError at hl
            cases hln : lookupImage st.images n with
            | some i => rw [hln] at hl; cases hl; rfl
            | none => rw [hln] at hl; cases hl
          have hlook' : lookupImage st.images img.name = some img := by
            rw [(hInv.2.1 n img hlook).1]
            exact hlook
          intro x hx
          rcases List.mem_append.mp hx with hx' | hx'
          · exact (descend_stored fs pyv st hInv f2).1 img ds hlook' hd x hx'
          · exact ih rest hr x hx'

theorem ancestors_det (st : ImageTree) :
    ∀ f g img la lb, ancestors st f img = .ok la →
      ancestors st g img = .ok lb → la = lb := by
  intro f
  induction f with
  | zero => intro g img la lb h; cases h
  | succ f' ih =>
    intro g img la lb hf hg
    cases g with
    | zero => cases hg
    | succ g' =>
      unfold ancestors at hf hg
      by_cases hroot : img.parent = st.root_image
      · rw [if_pos hroot] at hf hg
        cases hf
        cases hg
        rfl
      · rw [if_neg hroot] at hf hg
        cases hp : img.parent with
        | none => rw [hp] at hf; cases hf
        | some pn =>
          rw [hp] at hf hg
          dsimp only at hf hg
          cases hl : lookupImage st.images pn with
          | none => rw [hl] at hf; cases hf
          | some p =>
            rw [hl] at hf hg
            dsimp only at hf hg
            cases hfa : ancestors st f' p with
            | error e => rw [hfa] at hf; cases hf
            | ok lpa =>
              rw [hfa] at hf
              dsimp only at hf
              cases hf
              cases hga : ancestors st g' p with
              | error e => rw [hga] at hg; cases hg
              | ok lpb =>
                rw [hga] at hg
                dsimp only at hg
                cases hg
                rw [ih g' p lpa lpb hfa hga]

theorem anc_child (fs : FileSystem) (pyv : Option String) (st : ImageTree)
    (hInv : BaseInv fs pyv st) (f3 : Nat) (img : Image) (la : List Image)
    (c : String) (ce : Image)
    (himg : lookupImage st.images img.name = some img)
    (ha : ancestors st f3 img = .ok la)
    (hc : c ∈ img.children) (hce : lookupImage st.images c = some ce) :
    ancestors st (f3 + 1) ce = .ok (la ++ [ce]) := by
  obtain ⟨-, hch, -⟩ := hInv.2.1 _ _ himg
  obtain ⟨hdirc, s, hpoc⟩ := hch c hc
  obtain ⟨hcename, -, hrest⟩ := hInv.2.1 _ _ hce
  rw [if_pos hdirc] at hrest
  obtain ⟨p, s₂, pimg, hpo₂, hpar, -, -, -⟩ := hrest
  have hpn : p = img.name := by
    rw [hpoc] at hpo₂
    cases hpo₂
    rfl
  subst hpn
  have hnotroot : ¬(ce.parent = st.root_image) := by
    rw [hpar]
    intro hroot
    rcases hInv.2.2.2.2 img.name hroot.symm with ⟨hs, hnd⟩ | hin
    · obtain ⟨-, -, hrest'⟩ := hInv.2.1 _ _ himg
      rw [if_neg (by rw [hnd]; intro hx; cases hx)] at hrest'
      obtain ⟨hparnone, -, -⟩ := hrest'
      cases f3 with
      | zero => cases ha
      | succ g =>
        unfold ancestors at ha
        rw [hparnone, ← hroot] at ha
        simp only [reduceCtorEq, if_false] at ha
    · cases hin
  unfold ancestors
  rw [if_neg hnotroot, hpar]
  dsimp only
  rw [himg]
  dsimp only
  rw [ha]

theorem descend_deeper (fs : FileSystem) (pyv : Option String)
    (st : ImageTree) (hInv : BaseInv fs pyv st) :
    ∀ f2 : Nat,
    (∀ img l f3 la, lookupImage st.images img.name = some img →
      ancestors st f3 img = .ok la →
      descendAux st f2 (.inl img) = .ok l →
      ∀ b ∈ l, ∃ f4 lb, ancestors st f4 b = .ok lb ∧ la.length ≤ lb.length ∧
        (b ≠ img → la.length < lb.length)) ∧
    (∀ cs l f3 la, (∀ c ∈ cs, ∃ ce, lookupImage st.images c = some ce ∧
        ancestors st f3 ce = .ok (la ++ [ce])) →
      descendAux st f2 (.inr cs) = .ok l →
      ∀ b ∈ l, ∃ f4 lb, ancestors st f4 b = .ok lb ∧ la.length < lb.length) := by
  intro f2
  induction f2 with
  | zero =>
    constructor
    · intro img l f3 la _ _ h; cases h
    · intro cs l f3 la _ h; cases h
  | succ f ih =>
    constructor
    · intro img l f3 la hlook ha h
      unfold descendAux at h
      cases hd : descendAux st f (.inr img.children) with
      | error e => rw [hd] at h; cases h
      | ok descs =>
        rw [hd] at h
        dsimp only at h
        cases h
        intro b hb
        rcases List.mem_cons.mp hb with rfl | hb'
        · exact ⟨f3, la, ha, le_refl _, fun hne => absurd rfl hne⟩
        · have hkids : ∀ c ∈ img.children, ∃ ce,
              lookupImage st.images c = some ce ∧
              ancestors st (f3 + 1) ce = .ok (la ++ [ce]) := by
            intro c hc
            have hstored : (lookupImage st.images c).isSome = true := by
              rcases hInv.2.2.2.1 _ _ c hlook hc with hs | hin
              · exact hs
              · cases hin
            obtain ⟨ce, hce⟩ := Option.isSome_iff_exists.mp hstored
            exact ⟨ce, hce, anc_child fs pyv st hInv f3 img la c ce hlook ha
              hc hce⟩
          obtain ⟨f4, lb, hanc, hlt⟩ :=
            ih.2 img.children descs (f3 + 1) la hkids hd b hb'
          exact ⟨f4, lb, hanc, le_of_lt hlt, fun _ => hlt⟩
    · intro cs l f3 la hcs h
      cases cs with
      | nil =>
        unfold descendAux at h
        cases h
        intro b hb
        cases hb
      | cons c cs' =>
        unfold descendAux at h
        obtain ⟨ce, hce, hance⟩ := hcs c (List.mem_cons_self _ _)
        rw [hce] at h
        dsimp only at h
        cases hdc : descendAux st f (.inl ce) with
        | error e => rw [hdc] at h; cases h
        | ok ds =>
          rw [hdc] at h
          dsimp only at h
          cases hdr : descendAux st f (.inr cs') with
          | error e => rw [hdr] at h; cases h
          | ok rest =>
            rw [hdr] at h
            dsimp only at h
            cases h
            intro b hb
            rcases List.mem_append.mp hb with hb' | hb'
            · have hcein : lookupImage st.images ce.name = some ce := by
                rw [(hInv.2.1 c ce hce).1]
                exact hce
              obtain ⟨f4, lb, hanc, hle, -⟩ :=
                ih.1 ce ds f3 (la ++ [ce]) hcein hance hdc b hb'
              refine ⟨f4, lb, hanc, ?_⟩
              have : la.length < (la ++ [ce]).length := by simp
              exact lt_of_lt_of_le this hle
            · exact ih.2 cs' rest f3 la
                (fun c' hc' => hcs c' (List.mem_cons_of_mem _ hc')) hdr b hb'

theorem stored_name_unique (st : ImageTree) (x y : Image)
    (hx : lookupImage st.images x.name = some x)
    (hy : lookupImage st.images y.name = some y)
    (hn : x.name = y.name) : x = y := by
  rw [hn] at hx
  rw [hx] at hy
  cases hy
  rfl

/-- C1 amended: whenever `determine_rebuilds` succeeds on a constructed
tree, its output is exactly the set of names of compatible nodes in the
union of the edited nodes' descendant sets, without duplicates, listed
in ascending order of ancestor-chain length, and every node's name
appears before the names of all its proper descendants. The original
claim promised success for every edited list of stored names; editing
the root makes the call fail instead (see the counterexample). -/
theorem determine_rebuilds_spec (fs : FileSystem) (pyv : Option String)
    (order : List String) (fuel : Nat) (st : ImageTree)
    (hbuild : buildTree fs pyv order fuel = .ok () st)
    (f2 : Nat) (edited : List String) (out : List String)
    (hrun : determine_rebuilds st f2 edited = .ok out) :
    ∃ deps, collectDescendants st f2 edited = .ok deps ∧
      (∀ x, x ∈ out ↔ ∃ img, img ∈ deps ∧ img.python_compat = true ∧
        img.name = x) ∧
      out.Nodup ∧
      (∃ pairs : List (Image × Nat),
        out = pairs.map (fun p => p.1.name) ∧
        List.Pairwise (fun a b => a.2 ≤ b.2) pairs ∧
        (∀ p ∈ pairs, ∃ al, ancestors st f2 p.1 = .ok al ∧ p.2 = al.length ∧
          p.1.python_compat = true ∧ p.1 ∈ deps)) ∧
      (∀ a b f3 l', lookupImage st.images a.name = some a →
        descendants st f3 a = .ok l' → b ∈ l' → b ≠ a →
        ∀ i j (hi : i < out.length) (hj : j < out.length),
          out.get ⟨i, hi⟩ = a.name → out.get ⟨j, hj⟩ = b.name → i < j) := by
  obtain ⟨hInv, -, -⟩ := buildTree_inv fs pyv order fuel st hbuild
  unfold determine_rebuilds at hrun
  cases hcol : collectDescendants st f2 edited with
  | error e => rw [hcol] at hrun; cases hrun
  | ok deps =>
    rw [hcol] at hrun
    dsimp only at hrun
    cases hkey : keyByDepth st f2 (dedupByName [] deps) with
    | error e => rw [hkey] at hrun; cases hrun
    | ok keyed =>
      rw [hkey] at hrun
      dsimp only at hrun
      cases hrun
      obtain ⟨hkmap, hkall⟩ := keyByDepth_facts st f2 _ keyed hkey
      have hdepsStored : ∀ x ∈ deps, lookupImage st.images x.name = some x :=
        collect_stored fs pyv st hInv f2 edited deps hcol
      have hsortperm := stableSortByKey_perm keyed
      have hsorted := stableSortByKey_sorted keyed
      refine ⟨deps, rfl, ?_, ?_, ?_, ?_⟩
      · -- membership
        intro x
        constructor
        · intro hx
          obtain ⟨p, hp, hpn⟩ := List.mem_map.mp hx
          have hpf := List.mem_filter.mp hp
          have hpk : p ∈ keyed := hsortperm.mem_iff.mp hpf.1
          have hfst : p.1 ∈ dedupByName [] deps := by
            rw [← hkmap]
            exact List.mem_map.mpr ⟨p, hpk, rfl⟩
          exact ⟨p.1, dedupByName_subset [] deps p.1 hfst,
            by simpa using hpf.2, hpn⟩
        · rintro ⟨img, hmem, hcompat, rfl⟩
          obtain ⟨y, hy, hyn⟩ := dedupByName_covers [] deps img hmem rfl
          have hyimg : y = img :=
            stored_name_unique st y img
              (hdepsStored y (dedupByName_subset [] deps y hy)) (hdepsStored img hmem) hyn
          subst hyimg
          have : y ∈ keyed.map Prod.fst := by rw [hkmap]; exact hy
          obtain ⟨p, hpk, hpfst⟩ := List.mem_map.mp this
          refine List.mem_map.mpr ⟨p, ?_, by rw [hpfst]⟩
          refine List.mem_filter.mpr ⟨hsortperm.mem_iff.mpr hpk, ?_⟩
          rw [hpfst]
          simpa using hcompat
      · -- nodup
        have h1 : (keyed.map (fun p => p.1.name)).Nodup := by
          have heq : keyed.map (fun p => p.1.name) =
              (keyed.map Prod.fst).map Image.name := by
            simp [List.map_map]
          rw [heq, hkmap]
          exact (dedupByName_names [] deps).2
        have h2 : ((stableSortByKey keyed).map (fun p => p.1.name)).Nodup :=
          (hsortperm.map (fun p => p.1.name)).nodup_iff.mpr h1
        exact List.Nodup.sublist
          (List.Sublist.map _ (List.filter_sublist _)) h2
      · -- order by depth
        refine ⟨(stableSortByKey keyed).filter (fun p => p.1.python_compat),
          rfl, List.Pairwise.filter _ hsorted, ?_⟩
        intro p hp
        have hpf := List.mem_filter.mp hp
        have hpk : p ∈ keyed := hsortperm.mem_iff.mp hpf.1
        obtain ⟨al, hal, hlen⟩ := hkall p hpk
        have hfst : p.1 ∈ dedupByName [] deps := by
          rw [← hkmap]
          exact List.mem_map.mpr ⟨p, hpk, rfl⟩
        exact ⟨al, hal, hlen, by simpa using hpf.2,
          dedupByName_subset [] deps p.1 hfst⟩
      · -- ancestors before descendants
        intro a b f3 l' ha hdesc hbmem hbne i j hi hj hgi hgj
        have hi' : i <
            ((stableSortByKey keyed).filter (fun p => p.1.python_compat)).length := by
          simpa using hi
        have hj' : j <
            ((stableSortByKey keyed).filter (fun p => p.1.python_compat)).length := by
          simpa using hj
        have hfacts : ∀ m (hm : m <
            ((stableSortByKey keyed).filter (fun p => p.1.python_compat)).length),
            ∃ al, ancestors st f2
              (((stableSortByKey keyed).filter
                (fun p => p.1.python_compat)).get ⟨m, hm⟩).1 = .ok al ∧
            (((stableSortByKey keyed).filter
              (fun p => p.1.python_compat)).get ⟨m, hm⟩).2 = al.length ∧
            (((stableSortByKey keyed).filter
              (fun p => p.1.python_compat)).get ⟨m, hm⟩).1 ∈ deps := by
          intro m hm
          have hpmem : ((stableSortByKey keyed).filter
              (fun p => p.1.python_compat)).get ⟨m, hm⟩ ∈
              (stableSortByKey keyed).filter (fun p => p.1.python_compat) :=
            List.get_mem _ _ _
          have hpf := List.mem_filter.mp hpmem
          have hpk := hsortperm.mem_iff.mp hpf.1
          obtain ⟨al, hal, hlen⟩ := hkall _ hpk
          have hfst : (((stableSortByKey keyed).filter
              (fun p => p.1.python_compat)).get ⟨m, hm⟩).1 ∈
              dedupByName [] deps := by
            rw [← hkmap]
            exact List.mem_map.mpr ⟨_, hpk, rfl⟩
          exact ⟨al, hal, hlen, dedupByName_subset [] deps _ hfst⟩
        have hname_i : (((stableSortByKey keyed).filter
            (fun p => p.1.python_compat)).get ⟨i, hi'⟩).1.name = a.name := by
          rw [List.get_eq_getElem] at hgi ⊢
          rw [List.getElem_map] at hgi
          exact hgi
        have hname_j : (((stableSortByKey keyed).filter
            (fun p => p.1.python_compat)).get ⟨j, hj'⟩).1.name = b.name := by
          rw [List.get_eq_getElem] at hgj ⊢
          rw [List.getElem_map] at hgj
          exact hgj
        obtain ⟨ala, hala, hlena, hmema⟩ := hfacts i hi'
        obtain ⟨alb, halb, hlenb, hmemb⟩ := hfacts j hj'
        have hbstored : lookupImage st.images b.name = some b :=
          (descend_stored fs pyv st hInv f3).1 a l' ha hdesc b hbmem
        have heqa : (((stableSortByKey keyed).filter
            (fun p => p.1.python_compat)).get ⟨i, hi'⟩).1 = a :=
          stored_name_unique st _ a (hdepsStored _ hmema) ha hname_i
        have heqb : (((stableSortByKey keyed).filter
            (fun p => p.1.python_compat)).get ⟨j, hj'⟩).1 = b :=
          stored_name_unique st _ b (hdepsStored _ hmemb) hbstored hname_j
        rw [heqa] at hala
        rw [heqb] at halb
        obtain ⟨f4, lb', hanc', -, hstrict⟩ :=
          (descend_deeper fs pyv st hInv f3).1 a l' f2 ala ha hala hdesc b hbmem
        have hlb : lb' = alb := ancestors_det st f4 f2 b lb' alb hanc' halb
        have hkey_lt : (((stableSortByKey keyed).filter
            (fun p => p.1.python_compat)).get ⟨i, hi'⟩).2 <
            (((stableSortByKey keyed).filter
              (fun p => p.1.python_compat)).get ⟨j, hj'⟩).2 := by
          rw [hlena, hlenb]
          have := hstrict hbne
          rw [hlb] at this
          exact this
        by_contra hij
        push_neg at hij
        have hsorted' := List.Pairwise.filter (fun p => p.1.python_compat) hsorted
        rcases Nat.lt_or_ge j i with hji | hge
        · have := (List.pairwise_iff_get.mp hsorted') ⟨j, hj'⟩ ⟨i, hi'⟩ hji
          omega
        · have : i = j := le_antisymm (Nat.le_of_lt_succ (by omega)) (by omega)
          subst this
          exact absurd hkey_lt (lt_irrefl _)

/-- C1 counterexample: the claim ranges over every input sequence of names
present in the mapping, but editing `"base"` — present in `stA.images` as
the constructed tree's root — makes `determine_rebuilds` dereference the
root's absent parent inside `ancestors` and fail with `AttributeError`
instead of returning the promised sequence. -/
theorem determine_rebuilds_root_cex :
    buildTree fsA none orderA 12 = .ok () stA ∧
    lookupImage stA.images "base" = some baseImgA ∧
    determine_rebuilds stA 12 ["base"] = .error .attributeError :=
  ⟨rfl, rfl, rfl⟩

/-- Witness for `determine_rebuilds_spec` on the constructed tree `stA`
with edited list `["mid"]`, whose rebuild list is
`["mid", "leaf1", "leaf2"]`. -/
theorem determine_rebuilds_spec_witness :
    buildTree fsA none orderA 12 = .ok () stA ∧
    determine_rebuilds stA 12 ["mid"] = .ok ["mid", "leaf1", "leaf2"] ∧
    (∃ deps, collectDescendants stA 12 ["mid"] = .ok deps ∧
      (∀ x, x ∈ (["mid", "leaf1", "leaf2"] : List String) ↔
        ∃ img, img ∈ deps ∧ img.python_compat = true ∧ img.name = x) ∧
      (["mid", "leaf1", "leaf2"] : List String).Nodup ∧
      (∃ pairs : List (Image × Nat),
        (["mid", "leaf1", "leaf2"] : List String) =
          pairs.map (fun p => p.1.name) ∧
        List.Pairwise (fun a b => a.2 ≤ b.2) pairs ∧
        (∀ p ∈ pairs, ∃ al, ancestors stA 12 p.1 = .ok al ∧
          p.2 = al.length ∧ p.1.python_compat = true ∧ p.1 ∈ deps)) ∧
      (∀ a b f3 l', lookupImage stA.images a.name = some a →
        descendants stA f3 a = .ok l' → b ∈ l' → b ≠ a →
        ∀ i j (hi : i < (["mid", "leaf1", "leaf2"] : List String).length)
          (hj : j < (["mid", "leaf1", "leaf2"] : List String).length),
          (["mid", "leaf1", "leaf2"] : List String).get ⟨i, hi⟩ = a.name →
          (["mid", "leaf1", "leaf2"] : List String).get ⟨j, hj⟩ = b.name →
          i < j)) :=
  ⟨rfl, rfl, determine_rebuilds_spec fsA none orderA 12 stA rfl 12 ["mid"]
    ["mid", "leaf1", "leaf2"] rfl⟩
